import Mathlib

/-!
Verification of the Dhammapada hOCR verse-extraction core (cmd main.go of the
extractor: bounding-box parsing, line building, verse stitching, entity
assembly).  Go strings are modelled as `List Char`; Go `int` as `Int`
(the parsed coordinate and verse-number values in play never overflow, so no
wrap-around modelling is needed).  The Go expression
`int(float64(h)*0.82)` (resp. `*0.20`) is modelled as truncated integer
division `Int.tdiv (82*h) 100` (resp. `Int.tdiv (20*h) 100`): for the whole
value range reachable here the float64 computation agrees with exact rational
arithmetic truncated toward zero, because 82/100 and 20/100 round to float64
with relative error below 2^-53 and the fractional parts of 82*h/100 are
multiples of 1/50.
-/

namespace Dhammapada

/-- Go strings, modelled as lists of characters. -/
abbrev Str := List Char

/-- Whitespace, as matched by the Go regexp class `\s` ([\t\n\f\r ]) and
trimmed by `strings.TrimSpace`; the extractor only ever meets ASCII blanks. -/
def isWS (c : Char) : Bool :=
  c = ' ' || c = '\t' || c = '\n' || c = '\x0c' || c = '\r' || c = '\x0b'

/-- The punctuation class `[,.;:!?]` of the spacing-fix regexp in
`joinWithSpaces`. -/
def isPunct (c : Char) : Bool :=
  c = ',' || c = '.' || c = ';' || c = ':' || c = '!' || c = '?'

/-- Numeric value of a string of decimal digits (the value `strconv.Atoi`
returns on a `\d+` capture). -/
def digitsVal (s : Str) : Nat :=
  s.foldl (fun a c => a * 10 + (c.toNat - '0'.toNat)) 0

/-- `atoi` of the source: `strconv.Atoi` with the error ignored, so a
syntactically malformed numeral yields 0 (and the huge-numeral clamping of
`Atoi` is immaterial: every caller feeds it a short digit run). -/
def atoi (s : Str) : Int :=
  match s with
  | [] => 0
  | c :: rest =>
    if c = '-' then
      if !rest.isEmpty && rest.all Char.isDigit then -(digitsVal rest : Int) else 0
    else if c = '+' then
      if !rest.isEmpty && rest.all Char.isDigit then (digitsVal rest : Int) else 0
    else if (c :: rest).all Char.isDigit then (digitsVal (c :: rest) : Int) else 0

/-- `strings.TrimSpace`: drop leading and trailing whitespace. -/
def trimSpace (s : Str) : Str :=
  ((s.dropWhile isWS).reverse.dropWhile isWS).reverse

/-- `reInt` of the source: the regexp `^\d+$` — a non-empty string of
decimal digits. -/
def isIntLit (s : Str) : Bool :=
  !s.isEmpty && s.all Char.isDigit

/-- After dropping a whitespace run, is the next character punctuation?
(Auxiliary to `fixPunct`.) -/
def leadsToPunct (l : Str) : Bool :=
  match l.dropWhile isWS with
  | c :: _ => isPunct c
  | [] => false

/-- The global replacement `regexp \s+([,.;:!?]) -> $1` inside
`joinWithSpaces`: every run of whitespace that immediately precedes one of
`, . ; : ! ?` is deleted (character-wise: a whitespace character is deleted
exactly when only whitespace stands between it and a following punctuation
character). -/
def fixPunct : Str → Str
  | [] => []
  | c :: rest =>
    if isWS c && leadsToPunct rest then fixPunct rest else c :: fixPunct rest

/-- `strings.Join(tokens, " ")`. -/
def joinSp : List Str → Str
  | [] => []
  | [t] => t
  | t :: ts => t ++ ' ' :: joinSp ts

/-- `joinWithSpaces` of the source: join the tokens with single spaces, then
remove whitespace immediately preceding a punctuation character. -/
def joinWithSpaces (tokens : List Str) : Str :=
  fixPunct (joinSp tokens)

-- sanity: " ," style OCR gaps are closed, text is otherwise preserved
example : joinWithSpaces [['a','b'], [','], ['c']] = ['a','b',',',' ','c'] := by decide
example : fixPunct (' ' :: ' ' :: '.' :: []) = ['.'] := by decide
example : trimSpace ('\t' :: 'a' :: ' ' :: []) = ['a'] := by decide
example : atoi ['5','8'] = 58 := by decide
example : isIntLit ['5','8'] = true ∧ isIntLit ['5','a'] = false := by decide

/-- Bounding box in page pixel space (`type bbox struct{ x0, y0, x1, y1 int }`). -/
structure bbox where
  x0 : Int
  y0 : Int
  x1 : Int
  y1 : Int
deriving DecidableEq, Repr

/-- Match `\s+` at the head of the string (at least one whitespace char),
greedily; return the remainder. -/
def takeWS1 (s : Str) : Option Str :=
  match s with
  | c :: rest => if isWS c then some (rest.dropWhile isWS) else none
  | [] => none

/-- Match `(\d+)` at the head of the string, greedily; return its numeric
value and the remainder. -/
def takeDigits1 (s : Str) : Option (Nat × Str) :=
  match s with
  | c :: _ =>
    if c.isDigit then some (digitsVal (s.takeWhile Char.isDigit), s.dropWhile Char.isDigit)
    else none
  | [] => none

/-- Try to match `reBBox` = `bbox\s+(\d+)\s+(\d+)\s+(\d+)\s+(\d+)` at the
start of the string. -/
def matchBBoxAt (s : Str) : Option bbox :=
  match s with
  | c1 :: c2 :: c3 :: c4 :: rest =>
    if c1 = 'b' ∧ c2 = 'b' ∧ c3 = 'o' ∧ c4 = 'x' then
      (takeWS1 rest).bind fun r1 =>
      (takeDigits1 r1).bind fun p1 =>
      (takeWS1 p1.2).bind fun r2 =>
      (takeDigits1 r2).bind fun p2 =>
      (takeWS1 p2.2).bind fun r3 =>
      (takeDigits1 r3).bind fun p3 =>
      (takeWS1 p3.2).bind fun r4 =>
      (takeDigits1 r4).bind fun p4 =>
      some ⟨(p1.1 : Int), (p2.1 : Int), (p3.1 : Int), (p4.1 : Int)⟩
    else none
  | _ => none

/-- Leftmost match of `reBBox` in the string (`FindStringSubmatch`),
scanning start positions left to right. -/
def findBBox : Str → Option bbox
  | [] => none
  | c :: rest =>
    match matchBBoxAt (c :: rest) with
    | some b => some b
    | none => findBBox rest

/-- `parseBBox` of the source: `none` models the Go `ok = false` return. -/
def parseBBox (title : Str) : Option bbox := findBBox title

/-- Try to match `rePageNo` = `ppageno\s+(\d+)` at the start of the string. -/
def matchPageNoAt (s : Str) : Option Int :=
  match s with
  | 'p' :: 'p' :: 'a' :: 'g' :: 'e' :: 'n' :: 'o' :: rest =>
    (takeWS1 rest).bind fun r1 =>
    (takeDigits1 r1).bind fun p1 =>
    some (p1.1 : Int)
  | _ => none

/-- Leftmost match of `rePageNo` in the string. -/
def findPageNo : Str → Option Int
  | [] => none
  | c :: rest =>
    match matchPageNoAt (c :: rest) with
    | some n => some n
    | none => findPageNo rest

/-- `parsePageNo` of the source: `none` models the Go `ok = false` return. -/
def parsePageNo (title : Str) : Option Int := findPageNo title

/-- Shorthand for building the char-list form of a string literal. -/
def strL (s : String) : Str := s.toList

example : parseBBox (strL "bbox 10 20 30 40; ppageno 61") = some ⟨10, 20, 30, 40⟩ := by decide
example : parseBBox (strL "image 3; bbox  7 8  9 11") = some ⟨7, 8, 9, 11⟩ := by decide
example : parseBBox (strL "bbox 1 2 3") = none := by decide
example : parsePageNo (strL "bbox 10 20 30 40; ppageno 61") = some 61 := by decide
example : parsePageNo (strL "bbox 10 20 30 40") = none := by decide

/-- Heuristic defaults of the source (`var superRisePx = 5`). -/
def superRisePx : Int := 5

/-- `footCut := pb.y0 + int(float64(pHeight)*footnoteFrac)` with
`footnoteFrac = 0.82` (see the header comment for the float64 model). -/
def footCutOf (pb : bbox) : Int :=
  pb.y0 + Int.tdiv (82 * (pb.y1 - pb.y0)) 100

/-- `leftCut := pb.x0 + int(float64(pWidth)*leftMarginFrac)` with
`leftMarginFrac = 0.20`. -/
def leftCutOf (pb : bbox) : Int :=
  pb.x0 + Int.tdiv (20 * (pb.x1 - pb.x0)) 100

/-- `type word struct { x int; t string }`. -/
structure word where
  x : Int
  t : Str
deriving DecidableEq, Repr

/-- `type line struct { b bbox; ws []word }`. -/
structure line where
  b : bbox
  ws : List word
deriving DecidableEq, Repr

/-- A raw `.ocrx_word` element: its `title` annotation and its text. -/
structure hWord where
  title : Str
  text : Str
deriving DecidableEq, Repr

/-- A raw `.ocr_line` element. -/
structure hLine where
  title : Str
  words : List hWord
deriving DecidableEq, Repr

/-- A raw `.ocr_page` element. -/
structure hPage where
  title : Str
  lines : List hLine
deriving DecidableEq, Repr

/-- The per-word body of the `.ocrx_word` loop: skip words with no parseable
box, with empty trimmed text, or whose top sits more than `superRisePx`
above the line top (superscripts); otherwise keep the left edge and the
trimmed text. -/
def cleanWord (lb : bbox) (w : hWord) : Option word :=
  match parseBBox w.title with
  | none => none
  | some wb =>
    let text := trimSpace w.text
    if text.isEmpty then none
    else if wb.y0 < lb.y0 - superRisePx then none
    else some ⟨wb.x0, text⟩

/-- Words ordered left-to-right by their left edge (the `sort.Slice`
comparator `ws[i].x < ws[j].x`; the Go sort is unstable, so the order among
equal-x words is unspecified — insertion sort realizes one admissible
outcome). -/
def wordLE (a b : word) : Prop := a.x ≤ b.x

instance : DecidableRel wordLE := fun a b => Int.decLe a.x b.x

instance : IsTotal word wordLE := ⟨fun a b => Int.le_total a.x b.x⟩

instance : IsTrans word wordLE := ⟨fun _ _ _ hab hbc => le_trans hab hbc⟩

/-- The per-line body of the `.ocr_line` loop: skip lines with no parseable
box or in the footnote region (`lb.y0 >= footCut`); clean the words, drop the
line if none survive, and order survivors by ascending left-x. -/
def cleanLine (footCut : Int) (ln : hLine) : Option line :=
  match parseBBox ln.title with
  | none => none
  | some lb =>
    if footCut ≤ lb.y0 then none
    else
      let ws := ln.words.filterMap (cleanWord lb)
      if ws.isEmpty then none
      else some ⟨lb, List.insertionSort wordLE ws⟩

/-- All cleaned lines of a page, in document order. -/
def cleanLines (footCut : Int) (pg : hPage) : List line :=
  pg.lines.filterMap (cleanLine footCut)

/-- The verse map `verses : map[int]string`, modelled as an association list
with distinct keys (updates replace in place). -/
abbrev VMap := List (Int × Str)

/-- Map lookup (`prev, ok := verses[n]`). -/
def lookupV (m : VMap) (n : Int) : Option Str :=
  (m.find? (fun p => p.1 == n)).map Prod.snd

/-- Map store (`verses[n] = txt`): replace the existing binding or append. -/
def insertV (m : VMap) (n : Int) (t : Str) : VMap :=
  match m with
  | [] => [(n, t)]
  | p :: rest => if p.1 == n then (n, t) :: rest else p :: insertV rest n t

/-- Stitcher state: `currentNum *int` (`none` = Idle) and the token buffer. -/
structure stState where
  currentNum : Option Int
  buf : List Str
deriving DecidableEq, Repr

/-- The map effect of `flush()`: with an open verse and a non-empty buffer,
join the buffer, fix punctuation spacing, trim, and store (appending with a
separating space if the verse already has text); otherwise store nothing. -/
def flushMap (st : stState) (m : VMap) : VMap :=
  match st.currentNum with
  | some n =>
    if st.buf.isEmpty then m
    else
      let txt := trimSpace (joinWithSpaces st.buf)
      match lookupV m n with
      | some prev => insertV m n (trimSpace (prev ++ ' ' :: txt))
      | none => insertV m n txt
  | none => m

/-- `flush()` in full: the map effect plus the unconditional state reset
(`currentNum = nil; buf = buf[:0]`). -/
def flushFull (sm : stState × VMap) : stState × VMap :=
  (⟨none, []⟩, flushMap sm.1 sm.2)

/-- One step of the stitcher on a cleaned line: a line whose first word sits
at or left of `leftCut` and is a pure integer literal starts a new verse
(flush, open the number, seed the buffer with the remaining words); any other
line appends all its words to the buffer. -/
def stepLine (leftCut : Int) (sm : stState × VMap) (ln : line) : stState × VMap :=
  match ln.ws with
  | [] => sm
  | w :: rest =>
    if w.x ≤ leftCut ∧ isIntLit w.t then
      let fm := flushFull sm
      (⟨some (atoi w.t), fm.1.buf ++ rest.map word.t⟩, fm.2)
    else
      (⟨sm.1.currentNum, sm.1.buf ++ (w :: rest).map word.t⟩, sm.2)

/-- The stitcher loop over the cleaned lines of one page. -/
def runLines (leftCut : Int) (sm : stState × VMap) (lns : List line) : stState × VMap :=
  lns.foldl (stepLine leftCut) sm

/-- The end-of-page `flush()`: only its map effect survives the page scope. -/
def finishMap (sm : stState × VMap) : VMap := flushMap sm.1 sm.2

/-- Page body once the page box is known: build the cleaned lines, stitch
them starting from Idle with an empty buffer, and flush at the end of the
page. -/
def processPageOn (m : VMap) (pb : bbox) (pg : hPage) : VMap :=
  finishMap (runLines (leftCutOf pb) (⟨none, []⟩, m) (cleanLines (footCutOf pb) pg))

/-- The `.ocr_page` loop body: skip pages with no parseable box; apply the
inclusive page-number window when a `ppageno` annotation is present
(a page lacking one is conservatively included). -/
def processPage (pmin pmax : Int) (m : VMap) (pg : hPage) : VMap :=
  match parseBBox pg.title with
  | none => m
  | some pb =>
    match parsePageNo pg.title with
    | some pp => if pp < pmin ∨ pmax < pp then m else processPageOn m pb pg
    | none => processPageOn m pb pg

/-- The whole extraction pass: fold the pages over an empty verse map. -/
def processDoc (pmin pmax : Int) (pgs : List hPage) : VMap :=
  pgs.foldl (processPage pmin pmax) []

/-- `type textEnt struct { id int; label string; body string }`. -/
structure textEnt where
  id : Nat
  label : Str
  body : Str
deriving DecidableEq, Repr

/-- Assembler accumulator: the entity list, the `(text_id, verse_number)`
mapping list, and the `consumed` set (membership list). -/
structure asmState where
  entities : List textEnt
  mappings : List (Nat × Int)
  consumed : List Int
deriving DecidableEq, Repr

/-- Decimal rendering of a natural number. -/
def natStr (n : Nat) : Str := Nat.toDigits 10 n

/-- `strconv.Itoa` / `fmt.Sprintf("%d", ·)` on a Go int. -/
def intStr (n : Int) : Str :=
  if n < 0 then '-' :: natStr n.natAbs else natStr n.toNat

/-- `filterNonEmpty` of the source: keep the strings that are non-empty
after trimming. -/
def filterNonEmpty (ss : List Str) : List Str :=
  ss.filter (fun s => !(trimSpace s).isEmpty)

/-- The composite-pair loop body: skip the pair when neither side is in the
verse map; otherwise emit one `A–B` entity (en-dash label, space-joined
non-empty bodies), two mappings, and mark both sides consumed. -/
def pairStep (verses : VMap) (st : asmState) (p : Int × Int) : asmState :=
  let ta := lookupV verses p.1
  let tb := lookupV verses p.2
  if ta.isNone && tb.isNone then st
  else
    let label := intStr p.1 ++ '–' :: intStr p.2
    let body := trimSpace (joinSp (filterNonEmpty [ta.getD [], tb.getD []]))
    let entID := st.entities.length + 1
    ⟨st.entities ++ [⟨entID, label, body⟩],
     st.mappings ++ [(entID, p.1), (entID, p.2)],
     st.consumed ++ [p.1, p.2]⟩

/-- Phase 1 of the assembler: the composite pairs, in configuration order. -/
def compPhase (verses : VMap) (pairs : List (Int × Int)) : asmState :=
  pairs.foldl (pairStep verses) ⟨[], [], []⟩

/-- The not-yet-consumed verse numbers, in ascending order (`sort.Ints`). -/
def singleKeys (verses : VMap) (consumed : List Int) : List Int :=
  List.insertionSort (fun a b : Int => a ≤ b)
    ((verses.map Prod.fst).filter (fun k => !(consumed.contains k)))

/-- The single-verse loop body: one entity labelled with the decimal verse
number and one mapping. -/
def singleStep (verses : VMap) (st : asmState) (k : Int) : asmState :=
  ⟨st.entities ++ [⟨st.entities.length + 1, intStr k, (lookupV verses k).getD []⟩],
   st.mappings ++ [(st.entities.length + 1, k)],
   st.consumed⟩

/-- Phase 2 of the assembler: the remaining single verses in ascending
order. -/
def buildSingles (verses : VMap) (st : asmState) : asmState :=
  (singleKeys verses st.consumed).foldl (singleStep verses) st

/-- The whole entity assembler (`// 2) Build text entities`). -/
def buildEntities (verses : VMap) (pairs : List (Int × Int)) : asmState :=
  buildSingles verses (compPhase verses pairs)

-- Concrete hOCR fragments used by the scenario checks below.

/-- A 1000×1000 page carrying verse 70 with the single body word `ab`. -/
def pgA : hPage :=
  ⟨strL "bbox 0 0 1000 1000",
   [⟨strL "bbox 10 100 900 130",
     [⟨strL "bbox 10 100 60 130", strL "70"⟩,
      ⟨strL "bbox 300 100 400 130", strL "ab"⟩]⟩]⟩

/-- A second 1000×1000 page reopening verse 70 with the body word `cd`. -/
def pgB : hPage :=
  ⟨strL "bbox 0 0 1000 1000",
   [⟨strL "bbox 10 100 900 130",
     [⟨strL "bbox 10 100 60 130", strL "70"⟩,
      ⟨strL "bbox 300 100 400 130", strL "cd"⟩]⟩]⟩

example : processDoc 60 96 [pgA] = [(70, strL "ab")] := by decide
example : processDoc 60 96 [pgA, pgB] = [(70, strL "ab cd")] := by decide
example :
    buildEntities [(58, strL "foo")] [(58, 59)] =
      ⟨[⟨1, strL "58–59", strL "foo"⟩], [(1, 58), (1, 59)], [58, 59]⟩ := by decide
example :
    buildEntities [(3, strL "c"), (1, strL "a")] [] =
      ⟨[⟨1, strL "1", strL "a"⟩, ⟨2, strL "3", strL "c"⟩], [(1, 1), (2, 3)], []⟩ := by decide

/-! ### Whitespace, trimming and punctuation-fix lemmas -/

/-- Strings containing at least one non-whitespace character. -/
def goodStr (s : Str) : Prop := ∃ c ∈ s, isWS c = false

/-- Strings invariant under `trimSpace`. -/
def trimmed (s : Str) : Prop := trimSpace s = s

theorem dropWhile_head_false {α} {p : α → Bool} {l : List α} {c : α} {t : List α}
    (h : l.dropWhile p = c :: t) : p c = false := by
  have hh := List.head?_dropWhile_not p l
  rw [h] at hh
  exact hh

theorem dropWhile_idem {α} (p : α → Bool) (l : List α) :
    (l.dropWhile p).dropWhile p = l.dropWhile p := by
  cases h : l.dropWhile p with
  | nil => rfl
  | cons c t => rw [List.dropWhile_cons, if_neg (by simp [dropWhile_head_false h])]

theorem mem_dropWhile_of_false {α} {p : α → Bool} {l : List α} {c : α}
    (hc : c ∈ l) (hp : p c = false) : c ∈ l.dropWhile p := by
  induction l with
  | nil => cases hc
  | cons a t ih =>
    rw [List.dropWhile_cons]
    by_cases ha : p a = true
    · rw [if_pos ha]
      rcases List.mem_cons.mp hc with rfl | hc'
      · rw [ha] at hp; cases hp
      · exact ih hc'
    · rw [if_neg ha]; exact hc

theorem mem_trimSpace_of_false {c : Char} {l : Str}
    (hc : c ∈ l) (hp : isWS c = false) : c ∈ trimSpace l := by
  unfold trimSpace
  exact List.mem_reverse.mpr (mem_dropWhile_of_false
    (List.mem_reverse.mpr (mem_dropWhile_of_false hc hp)) hp)

theorem goodStr_trimSpace {l : Str} (h : goodStr l) : goodStr (trimSpace l) := by
  obtain ⟨c, hc, hw⟩ := h
  exact ⟨c, mem_trimSpace_of_false hc hw, hw⟩

theorem ne_nil_of_goodStr {l : Str} (h : goodStr l) : l ≠ [] := by
  obtain ⟨c, hc, -⟩ := h
  rintro rfl
  cases hc

theorem trimSpace_ne_nil_of_goodStr {l : Str} (h : goodStr l) : trimSpace l ≠ [] :=
  ne_nil_of_goodStr (goodStr_trimSpace h)

theorem mem_fixPunct_of_false {c : Char} {l : Str}
    (hc : c ∈ l) (hw : isWS c = false) : c ∈ fixPunct l := by
  induction l with
  | nil => cases hc
  | cons a t ih =>
    unfold fixPunct
    by_cases h : (isWS a && leadsToPunct t) = true
    · rw [if_pos h]
      rcases List.mem_cons.mp hc with rfl | hc'
      · rw [(Bool.and_eq_true _ _).mp h |>.1] at hw; cases hw
      · exact ih hc'
    · rw [if_neg h]
      rcases List.mem_cons.mp hc with rfl | hc'
      · exact List.mem_cons_self _ _
      · exact List.mem_cons_of_mem _ (ih hc')

theorem mem_joinSp {c : Char} {t : Str} {ts : List Str}
    (ht : t ∈ ts) (hc : c ∈ t) : c ∈ joinSp ts := by
  induction ts with
  | nil => cases ht
  | cons a ts ih =>
    cases ts with
    | nil =>
      rcases List.mem_cons.mp ht with rfl | ht'
      · exact hc
      · cases ht'
    | cons b bs =>
      show c ∈ a ++ ' ' :: joinSp (b :: bs)
      rcases List.mem_cons.mp ht with rfl | ht'
      · exact List.mem_append_left _ hc
      · exact List.mem_append_right _ (List.mem_cons_of_mem _ (ih ht'))

theorem goodStr_joinWithSpaces {ts : List Str} {t : Str}
    (ht : t ∈ ts) (hg : goodStr t) : goodStr (joinWithSpaces ts) := by
  obtain ⟨c, hc, hw⟩ := hg
  exact ⟨c, mem_fixPunct_of_false (mem_joinSp ht hc) hw, hw⟩

theorem dropWhile_eq_self_of_trimmed {l : Str} (h : trimmed l) :
    l.dropWhile isWS = l := by
  unfold trimmed trimSpace at h
  have h1 : (l.dropWhile isWS).length ≤ l.length := (List.dropWhile_sublist _).length_le
  have h2 : ((l.dropWhile isWS).reverse.dropWhile isWS).length ≤ (l.dropWhile isWS).length := by
    have := (@List.dropWhile_sublist Char ((l.dropWhile isWS).reverse) isWS).length_le
    simpa using this
  have h3 : ((l.dropWhile isWS).reverse.dropWhile isWS).reverse.length = l.length := by rw [h]
  rw [List.length_reverse] at h3
  exact (List.dropWhile_sublist _).eq_of_length (by omega)

theorem reverse_dropWhile_eq_self_of_trimmed {l : Str} (h : trimmed l) :
    l.reverse.dropWhile isWS = l.reverse := by
  have hu := dropWhile_eq_self_of_trimmed h
  unfold trimmed trimSpace at h
  rw [hu] at h
  have h2 : (l.reverse.dropWhile isWS).length ≤ l.reverse.length :=
    (List.dropWhile_sublist _).length_le
  have h3 : (l.reverse.dropWhile isWS).reverse.length = l.length := by rw [h]
  rw [List.length_reverse] at h3
  rw [List.length_reverse] at h2
  exact (List.dropWhile_sublist _).eq_of_length (by rw [List.length_reverse]; omega)

theorem head?_reverse_dropWhile {α} (p : α → Bool) (l : List α) (h : l.dropWhile p ≠ []) :
    (l.dropWhile p).reverse.head? = l.reverse.head? := by
  induction l with
  | nil => simp at h
  | cons a t ih =>
    rw [List.dropWhile_cons] at h ⊢
    by_cases hp : p a = true
    · rw [if_pos hp] at h ⊢
      have ht : t ≠ [] := by
        rintro rfl
        simp at h
      rw [ih h, List.reverse_cons, List.head?_append]
      cases hrev : t.reverse.head? with
      | none =>
        exact absurd (by simpa using hrev) (by simpa using ht)
      | some x => simp
    · rw [if_neg hp]
theorem trimSpace_head_false {l : Str} {c : Char} {t : Str}
    (h : trimSpace l = c :: t) : isWS c = false := by
  unfold trimSpace at h
  have hv : (l.dropWhile isWS).reverse.dropWhile isWS ≠ [] := by
    intro h0
    rw [h0] at h
    cases h
  have hh := head?_reverse_dropWhile isWS (l.dropWhile isWS).reverse hv
  rw [List.reverse_reverse, h] at hh
  cases hu : l.dropWhile isWS with
  | nil => rw [hu] at hh; cases hh
  | cons u us =>
    rw [hu] at hh
    have : u = c := by simpa using hh.symm
    subst this
    exact dropWhile_head_false hu

theorem trimmed_trimSpace (l : Str) : trimmed (trimSpace l) := by
  unfold trimmed
  cases hl : trimSpace l with
  | nil => rfl
  | cons c t =>
    have hc : isWS c = false := trimSpace_head_false hl
    show trimSpace (c :: t) = c :: t
    unfold trimSpace
    rw [List.dropWhile_cons, if_neg (by simp [hc])]
    have hrev : (c :: t).reverse.dropWhile isWS = (c :: t).reverse := by
      have : (c :: t).reverse = (l.dropWhile isWS).reverse.dropWhile isWS := by
        rw [← hl]; unfold trimSpace; rw [List.reverse_reverse]
      rw [this]
      exact dropWhile_idem _ _
    rw [hrev, List.reverse_reverse]

theorem trimmed_append {a b : Str} (ha : trimmed a) (ha0 : a ≠ [])
    (hb : trimmed b) (hb0 : b ≠ []) : trimmed (a ++ ' ' :: b) := by
  obtain ⟨c, t, rfl⟩ : ∃ c t, a = c :: t := by
    cases a with
    | nil => exact absurd rfl ha0
    | cons c t => exact ⟨c, t, rfl⟩
  have hc : isWS c = false :=
    dropWhile_head_false (dropWhile_eq_self_of_trimmed ha)
  obtain ⟨d, s, hd⟩ : ∃ d s, b.reverse = d :: s := by
    cases hbr : b.reverse with
    | nil => exact absurd (by simpa using hbr) hb0
    | cons d s => exact ⟨d, s, rfl⟩
  have hdw : isWS d = false := by
    have := reverse_dropWhile_eq_self_of_trimmed hb
    rw [hd] at this
    exact dropWhile_head_false this
  unfold trimmed trimSpace
  rw [show ((c :: t) ++ ' ' :: b).dropWhile isWS = (c :: t) ++ ' ' :: b by
    rw [List.cons_append, List.dropWhile_cons, if_neg (by simp [hc])]]
  rw [show ((c :: t) ++ ' ' :: b).reverse.dropWhile isWS = ((c :: t) ++ ' ' :: b).reverse by
    rw [List.reverse_append, List.reverse_cons, hd, List.cons_append, List.cons_append,
      List.dropWhile_cons, if_neg (by simp [hdw])]]
  rw [List.reverse_reverse]

theorem trimSpace_eq_nil_of_all_ws {l : Str} (h : ∀ c ∈ l, isWS c = true) :
    trimSpace l = [] := by
  unfold trimSpace
  rw [List.dropWhile_eq_nil_iff.mpr h]
  rfl

/-! ### Idempotence of the punctuation-spacing fix -/

theorem fixPunct_cons (c : Char) (rest : Str) :
    fixPunct (c :: rest) =
      if isWS c && leadsToPunct rest then fixPunct rest else c :: fixPunct rest := rfl

theorem leadsToPunct_cons (c : Char) (l : Str) :
    leadsToPunct (c :: l) = if isWS c then leadsToPunct l else isPunct c := by
  unfold leadsToPunct
  rw [List.dropWhile_cons]
  by_cases h : isWS c = true
  · rw [if_pos h, if_pos h]
  · rw [if_neg h, if_neg h]

theorem leadsToPunct_fixPunct (l : Str) : leadsToPunct (fixPunct l) = leadsToPunct l := by
  induction l with
  | nil => rfl
  | cons c rest ih =>
    rw [fixPunct_cons]
    by_cases h : (isWS c && leadsToPunct rest) = true
    · rw [if_pos h, ih, leadsToPunct_cons,
        if_pos ((Bool.and_eq_true _ _).mp h).1, ((Bool.and_eq_true _ _).mp h).2]
    · rw [if_neg h, leadsToPunct_cons, leadsToPunct_cons, ih]

/-- **C7.** The space-before-punctuation normalization of `joinWithSpaces`
(the global replacement `\s+([,.;:!?]) -> $1`, modelled by `fixPunct`) is
idempotent: applying it to its own output returns the output unchanged, so
re-running it on already-normalized text is a no-op. -/
theorem C7_fixPunct_idempotent (l : Str) : fixPunct (fixPunct l) = fixPunct l := by
  induction l with
  | nil => rfl
  | cons c rest ih =>
    by_cases h : (isWS c && leadsToPunct rest) = true
    · rw [show fixPunct (c :: rest) = fixPunct rest by rw [fixPunct_cons, if_pos h], ih]
    · rw [show fixPunct (c :: rest) = c :: fixPunct rest by rw [fixPunct_cons, if_neg h]]
      have h2 : (isWS c && leadsToPunct (fixPunct rest)) = false := by
        rw [leadsToPunct_fixPunct]
        exact Bool.not_eq_true _ ▸ h
      rw [fixPunct_cons, if_neg (by simp [h2]), ih]

/-! ### Verse-map lemmas -/

theorem lookupV_insertV_self (m : VMap) (n : Int) (t : Str) :
    lookupV (insertV m n t) n = some t := by
  induction m with
  | nil => simp [insertV, lookupV]
  | cons p rest ih =>
    unfold insertV
    by_cases h : (p.1 == n) = true
    · rw [if_pos h]
      simp [lookupV]
    · rw [if_neg h]
      unfold lookupV at ih ⊢
      rw [List.find?_cons_of_neg _ (by simpa using h)]
      exact ih

theorem lookupV_insertV_ne (m : VMap) (n k : Int) (t : Str) (hk : k ≠ n) :
    lookupV (insertV m n t) k = lookupV m k := by
  induction m with
  | nil => simp [insertV, lookupV, List.find?_cons_of_neg, Ne.symm hk]
  | cons p rest ih =>
    unfold insertV
    by_cases h : (p.1 == n) = true
    · rw [if_pos h]
      have hp : p.1 = n := by simpa using h
      unfold lookupV
      rw [List.find?_cons_of_neg _ (by simpa using Ne.symm hk),
        List.find?_cons_of_neg _ (by simp [hp]; exact Ne.symm hk)]
    · rw [if_neg h]
      unfold lookupV at ih ⊢
      by_cases hpk : (p.1 == k) = true
      · rw [List.find?_cons, List.find?_cons, hpk]
      · rw [List.find?_cons, List.find?_cons, Bool.eq_false_iff.mpr hpk]
        exact ih

theorem mem_insertV {m : VMap} {n : Int} {t : Str} {p : Int × Str}
    (h : p ∈ insertV m n t) : p = (n, t) ∨ p ∈ m := by
  induction m with
  | nil =>
    unfold insertV at h
    rcases List.mem_cons.mp h with rfl | h0
    · exact Or.inl rfl
    · cases h0
  | cons q rest ih =>
    unfold insertV at h
    by_cases hq : (q.1 == n) = true
    · rw [if_pos hq] at h
      rcases List.mem_cons.mp h with rfl | h'
      · exact Or.inl rfl
      · exact Or.inr (List.mem_cons_of_mem _ h')
    · rw [if_neg hq] at h
      rcases List.mem_cons.mp h with rfl | h'
      · exact Or.inr (List.mem_cons_self _ _)
      · rcases ih h' with h'' | h''
        · exact Or.inl h''
        · exact Or.inr (List.mem_cons_of_mem _ h'')

theorem lookupV_mem {m : VMap} {n : Int} {t : Str} (h : lookupV m n = some t) :
    (n, t) ∈ m := by
  induction m with
  | nil => cases h
  | cons p rest ih =>
    unfold lookupV at h
    by_cases hp : (p.1 == n) = true
    · rw [List.find?_cons, hp] at h
      have h1 : p.1 = n := by simpa using hp
      have h2 : p.2 = t := by simpa using h
      exact List.mem_cons.mpr (Or.inl (by rw [← h1, ← h2]))
    · rw [List.find?_cons, Bool.eq_false_iff.mpr hp] at h
      exact List.mem_cons_of_mem _ (ih h)

/-! ### `atoi` on pure integer literals -/

theorem atoi_of_isIntLit {s : Str} (h : isIntLit s = true) :
    atoi s = (digitsVal s : Int) := by
  unfold isIntLit at h
  obtain ⟨h1, h2⟩ := (Bool.and_eq_true _ _).mp h
  cases s with
  | nil => cases h1
  | cons c rest =>
    have hcd : c.isDigit = true := by
      have := (List.all_eq_true.mp h2) c (List.mem_cons_self _ _)
      simpa using this
    have hcne : c ≠ '-' := by rintro rfl; cases hcd
    have hcpe : c ≠ '+' := by rintro rfl; cases hcd
    show (if c = '-' then
        if !rest.isEmpty && rest.all Char.isDigit then -(digitsVal rest : Int) else 0
      else if c = '+' then
        if !rest.isEmpty && rest.all Char.isDigit then (digitsVal rest : Int) else 0
      else if (c :: rest).all Char.isDigit then (digitsVal (c :: rest) : Int) else 0) =
      (digitsVal (c :: rest) : Int)
    rw [if_neg hcne, if_neg hcpe, if_pos (by simpa using h2)]

theorem atoi_nonneg_of_isIntLit {s : Str} (h : isIntLit s = true) : 0 ≤ atoi s := by
  rw [atoi_of_isIntLit h]
  exact Int.natCast_nonneg _

/-! ### Flush and stitcher-step lemmas -/

theorem flushMap_none (buf : List Str) (m : VMap) : flushMap ⟨none, buf⟩ m = m := rfl

theorem flushMap_open_nil (n : Int) (m : VMap) : flushMap ⟨some n, []⟩ m = m := rfl

theorem flushMap_open_none {n : Int} {buf : List Str} {m : VMap} (hbuf : buf ≠ [])
    (hl : lookupV m n = none) :
    flushMap ⟨some n, buf⟩ m = insertV m n (trimSpace (joinWithSpaces buf)) := by
  cases buf with
  | nil => exact absurd rfl hbuf
  | cons t ts =>
    have e : flushMap ⟨some n, t :: ts⟩ m =
        (match lookupV m n with
         | some prev => insertV m n (trimSpace (prev ++ ' ' :: trimSpace (joinWithSpaces (t :: ts))))
         | none => insertV m n (trimSpace (joinWithSpaces (t :: ts)))) := rfl
    rw [e, hl]

theorem flushMap_open_some {n : Int} {buf : List Str} {m : VMap} {prev : Str}
    (hbuf : buf ≠ []) (hl : lookupV m n = some prev) :
    flushMap ⟨some n, buf⟩ m =
      insertV m n (trimSpace (prev ++ ' ' :: trimSpace (joinWithSpaces buf))) := by
  cases buf with
  | nil => exact absurd rfl hbuf
  | cons t ts =>
    have e : flushMap ⟨some n, t :: ts⟩ m =
        (match lookupV m n with
         | some prev => insertV m n (trimSpace (prev ++ ' ' :: trimSpace (joinWithSpaces (t :: ts))))
         | none => insertV m n (trimSpace (joinWithSpaces (t :: ts)))) := rfl
    rw [e, hl]

theorem stepLine_empty {leftCut : Int} {sm : stState × VMap} {l : line}
    (hws : l.ws = []) : stepLine leftCut sm l = sm := by
  unfold stepLine
  rw [hws]

theorem stepLine_start {leftCut : Int} {sm : stState × VMap} {l : line}
    {w : word} {rest : List word} (hws : l.ws = w :: rest)
    (h : w.x ≤ leftCut ∧ isIntLit w.t = true) :
    stepLine leftCut sm l = (⟨some (atoi w.t), rest.map word.t⟩, flushMap sm.1 sm.2) := by
  unfold stepLine
  rw [hws]
  simp only [flushFull, if_pos h, List.nil_append]

theorem stepLine_cont {leftCut : Int} {sm : stState × VMap} {l : line}
    {w : word} {rest : List word} (hws : l.ws = w :: rest)
    (h : ¬(w.x ≤ leftCut ∧ isIntLit w.t = true)) :
    stepLine leftCut sm l = (⟨sm.1.currentNum, sm.1.buf ++ (w :: rest).map word.t⟩, sm.2) := by
  unfold stepLine
  rw [hws]
  simp only [if_neg h]

theorem runLines_nil (lc : Int) (sm : stState × VMap) : runLines lc sm [] = sm := rfl

theorem runLines_cons (lc : Int) (sm : stState × VMap) (l : line) (ls : List line) :
    runLines lc sm (l :: ls) = runLines lc (stepLine lc sm l) ls := rfl

/-- Orphan text is harmless: starting from Idle, the buffer content has no
influence on the verse map a page ultimately produces. -/
theorem finishMap_runLines_idle_buf (lc : Int) (lns : List line) :
    ∀ (m : VMap) (buf buf' : List Str),
      finishMap (runLines lc (⟨none, buf⟩, m) lns) =
        finishMap (runLines lc (⟨none, buf'⟩, m) lns) := by
  induction lns with
  | nil => intro m buf buf'; rfl
  | cons l ls ih =>
    intro m buf buf'
    rw [runLines_cons, runLines_cons]
    cases hws : l.ws with
    | nil => rw [stepLine_empty hws, stepLine_empty hws]; exact ih m buf buf'
    | cons w rest =>
      by_cases hc : (w.x ≤ lc ∧ isIntLit w.t = true)
      · rw [stepLine_start hws hc, stepLine_start hws hc]
        rfl
      · rw [stepLine_cont hws hc, stepLine_cont hws hc]
        exact ih m (buf ++ (w :: rest).map word.t) (buf' ++ (w :: rest).map word.t)

/-- A run of lines none of which starts a verse keeps the state Idle and the
verse map untouched. -/
theorem runLines_no_start (lc : Int) (lns : List line)
    (h : ∀ l ∈ lns, ∀ w rest, l.ws = w :: rest → ¬(w.x ≤ lc ∧ isIntLit w.t = true)) :
    ∀ (m : VMap) (buf : List Str), ∃ buf',
      runLines lc (⟨none, buf⟩, m) lns = (⟨none, buf'⟩, m) := by
  induction lns with
  | nil => intro m buf; exact ⟨buf, rfl⟩
  | cons l ls ih =>
    intro m buf
    rw [runLines_cons]
    cases hws : l.ws with
    | nil =>
      rw [stepLine_empty hws]
      exact ih (fun l' hl' => h l' (List.mem_cons_of_mem _ hl')) m buf
    | cons w rest =>
      rw [stepLine_cont hws (h l (List.mem_cons_self _ _) w rest hws)]
      exact ih (fun l' hl' => h l' (List.mem_cons_of_mem _ hl')) m _

/-! ### C1, C2, C10: the verse stitcher -/

/-- **C1.** Per cleaned line, the stitcher (i) starts a new verse when the
first word sits at or left of the left-margin cutoff and its text is a pure
non-negative integer literal: the open verse is flushed first, the state
becomes Open(n) for the denoted integer n, and the remaining words seed the
buffer; (ii) otherwise appends all the line's words to the buffer of the open
verse; and (iii) when no verse is open, such a line contributes nothing to
the verse map the page finally produces. -/
theorem C1_stitcher_line_step (leftCut : Int) (st : stState) (m : VMap)
    (lb : bbox) (w : word) (rest : List word) (lns : List line) :
    (w.x ≤ leftCut ∧ isIntLit w.t = true →
      stepLine leftCut (st, m) ⟨lb, w :: rest⟩ =
        (⟨some (digitsVal w.t : Int), rest.map word.t⟩, flushMap st m))
    ∧ (¬(w.x ≤ leftCut ∧ isIntLit w.t = true) →
      stepLine leftCut (st, m) ⟨lb, w :: rest⟩ =
        (⟨st.currentNum, st.buf ++ (w :: rest).map word.t⟩, m))
    ∧ (st.currentNum = none → ¬(w.x ≤ leftCut ∧ isIntLit w.t = true) →
      finishMap (runLines leftCut (stepLine leftCut (st, m) ⟨lb, w :: rest⟩) lns) =
        finishMap (runLines leftCut (st, m) lns)) := by
  refine ⟨fun h => ?_, fun h => ?_, fun hidle h => ?_⟩
  · rw [stepLine_start rfl h, atoi_of_isIntLit h.2]
  · rw [stepLine_cont rfl h]
  · obtain ⟨num, buf⟩ := st
    cases hidle
    rw [stepLine_cont rfl h]
    exact finishMap_runLines_idle_buf leftCut lns m _ _

/-- C1, instantiated: a left-margin line `70 ab` on an idle stitcher opens
verse 70 seeded with `ab`. -/
theorem C1_witness :
    stepLine 200 (⟨none, []⟩, ([] : VMap)) ⟨⟨10, 100, 900, 130⟩, [⟨10, strL "70"⟩, ⟨300, strL "ab"⟩]⟩ =
      (⟨some 70, [strL "ab"]⟩, []) := by
  have h := (C1_stitcher_line_step 200 ⟨none, []⟩ [] ⟨10, 100, 900, 130⟩
    ⟨10, strL "70"⟩ [⟨300, strL "ab"⟩] []).1 (by decide)
  exact h.trans (by decide)

/-- **C2 (amended).** The flush with state Open(n) and a *non-empty* buffer
joins the buffered words with single spaces, removes whitespace before
punctuation, trims, and stores the result under n — appending with a single
separating space when n already has text; other keys are untouched; the state
resets to Idle with an empty buffer regardless of branch.  (When the buffer
is empty, flush stores nothing — see the counterexample.)  Scenario E: verse
70 split over two pages ends as the first page's text, a space, the second
page's text. -/
theorem C2_flush_semantics (n : Int) (buf : List Str) (m : VMap) (hbuf : buf ≠ []) :
    (flushFull (⟨some n, buf⟩, m) = (⟨none, []⟩, flushMap ⟨some n, buf⟩ m))
    ∧ (lookupV m n = none →
        lookupV (flushMap ⟨some n, buf⟩ m) n = some (trimSpace (joinWithSpaces buf)))
    ∧ (∀ prev, lookupV m n = some prev →
        lookupV (flushMap ⟨some n, buf⟩ m) n =
          some (trimSpace (prev ++ ' ' :: trimSpace (joinWithSpaces buf))))
    ∧ (∀ prev, lookupV m n = some prev → trimmed prev → prev ≠ [] →
        goodStr (trimSpace (joinWithSpaces buf)) →
        lookupV (flushMap ⟨some n, buf⟩ m) n =
          some (prev ++ ' ' :: trimSpace (joinWithSpaces buf)))
    ∧ (∀ k, k ≠ n → lookupV (flushMap ⟨some n, buf⟩ m) k = lookupV m k)
    ∧ lookupV (processDoc 60 96 [pgA, pgB]) 70 = some (strL "ab" ++ ' ' :: strL "cd") := by
  refine ⟨rfl, fun hl => ?_, fun prev hl => ?_, fun prev hl htr hne hg => ?_, fun k hk => ?_, by decide⟩
  · rw [flushMap_open_none hbuf hl, lookupV_insertV_self]
  · rw [flushMap_open_some hbuf hl, lookupV_insertV_self]
  · rw [flushMap_open_some hbuf hl, lookupV_insertV_self,
      trimmed_append htr hne (trimmed_trimSpace _) (ne_nil_of_goodStr hg)]
  · cases hl : lookupV m n with
    | none => rw [flushMap_open_none hbuf hl, lookupV_insertV_ne _ _ _ _ hk]
    | some prev => rw [flushMap_open_some hbuf hl, lookupV_insertV_ne _ _ _ _ hk]

/-- C2, instantiated: flushing Open(5) with buffer `hi` on an empty map
stores verse 5 = `hi`. -/
theorem C2_witness :
    lookupV (flushMap ⟨some 5, [strL "hi"]⟩ []) 5 = some (strL "hi") := by
  have h := (C2_flush_semantics 5 [strL "hi"] [] (by decide)).2.1 (by decide)
  exact h.trans (by decide)

/-- C2, counterexample to the claim as stated: a flush with state Open(5) and
an empty buffer stores nothing at all — verse 5 does not enter the map (the
claim's description would store the empty joined text under 5). -/
theorem C2_counterexample :
    flushMap ⟨some 5, []⟩ [] = [] ∧ lookupV (flushMap ⟨some 5, []⟩ []) 5 = none := by
  exact ⟨rfl, rfl⟩

/-- **C10.** Stitcher state does not outlive a page: a page is processed from
Idle with an empty buffer (by definition), an open verse is flushed into the
map at the page's end, and a prefix of cleaned lines that do not begin with a
left-margin integer token contributes nothing to the page's final verse map
(their words sit in the idle-state buffer and are discarded). -/
theorem C10_page_isolation (pmin pmax : Int) (m : VMap) (pg : hPage) :
    (∀ pb, processPageOn m pb pg =
      finishMap (runLines (leftCutOf pb) (⟨none, []⟩, m) (cleanLines (footCutOf pb) pg)))
    ∧ (∀ pb, parseBBox pg.title = some pb →
        (∀ l ∈ cleanLines (footCutOf pb) pg, ∀ w rest, l.ws = w :: rest →
          ¬(w.x ≤ leftCutOf pb ∧ isIntLit w.t = true)) →
        processPage pmin pmax m pg = m)
    ∧ (∀ pb n buf m', parseBBox pg.title = some pb →
        runLines (leftCutOf pb) (⟨none, []⟩, m) (cleanLines (footCutOf pb) pg) =
          (⟨some n, buf⟩, m') →
        buf ≠ [] → lookupV m' n = none →
        lookupV (processPageOn m pb pg) n = some (trimSpace (joinWithSpaces buf)))
    ∧ (∀ lc (pre rest : List line),
        (∀ l ∈ pre, ∀ w ws, l.ws = w :: ws → ¬(w.x ≤ lc ∧ isIntLit w.t = true)) →
        finishMap (runLines lc (⟨none, []⟩, m) (pre ++ rest)) =
          finishMap (runLines lc (⟨none, []⟩, m) rest)) := by
  refine ⟨fun pb => rfl, fun pb hpb hns => ?_, fun pb n buf m' hpb hrun hbuf hl => ?_,
    fun lc pre rest hns => ?_⟩
  · obtain ⟨buf', hb⟩ := runLines_no_start (leftCutOf pb) _ hns m []
    have hOn : processPageOn m pb pg = m := by
      unfold processPageOn
      rw [hb]
      rfl
    unfold processPage
    rw [hpb]
    show (match parsePageNo pg.title with
      | some pp => if pp < pmin ∨ pmax < pp then m else processPageOn m pb pg
      | none => processPageOn m pb pg) = m
    cases hpp : parsePageNo pg.title with
    | none => exact hOn
    | some pp =>
      show (if pp < pmin ∨ pmax < pp then m else processPageOn m pb pg) = m
      by_cases hw : pp < pmin ∨ pmax < pp
      · rw [if_pos hw]
      · rw [if_neg hw]; exact hOn
  · unfold processPageOn
    rw [hrun]
    show lookupV (flushMap ⟨some n, buf⟩ m') n = _
    rw [flushMap_open_none hbuf hl, lookupV_insertV_self]
  · unfold runLines
    rw [List.foldl_append]
    obtain ⟨buf', hb⟩ := runLines_no_start lc pre hns m []
    unfold runLines at hb
    rw [hb]
    exact finishMap_runLines_idle_buf lc rest m buf' []

/-- C10, instantiated: page `pgA` ends with verse 70 open and buffer `ab`;
the end-of-page flush stores verse 70 = `ab`. -/
theorem C10_witness :
    lookupV (processPageOn [] ⟨0, 0, 1000, 1000⟩ pgA) 70 = some (strL "ab") := by
  have h := (C10_page_isolation 60 96 [] pgA).2.2.1 ⟨0, 0, 1000, 1000⟩ 70 [strL "ab"] []
    (by decide) (by decide) (by decide) (by decide)
  exact h.trans (by decide)

/-! ### C5, C6: the line builder -/

theorem cleanWord_eq (lb : bbox) (w : hWord) (wb : bbox) (h : parseBBox w.title = some wb) :
    cleanWord lb w =
      if (trimSpace w.text).isEmpty then none
      else if wb.y0 < lb.y0 - superRisePx then none
      else some ⟨wb.x0, trimSpace w.text⟩ := by
  unfold cleanWord
  rw [h]

theorem cleanLine_eq (footCut : Int) (ln : hLine) (lb : bbox) (h : parseBBox ln.title = some lb) :
    cleanLine footCut ln =
      if footCut ≤ lb.y0 then none
      else if (ln.words.filterMap (cleanWord lb)).isEmpty then none
      else some ⟨lb, List.insertionSort wordLE (ln.words.filterMap (cleanWord lb))⟩ := by
  unfold cleanLine
  rw [h]

/-- Scenario B line: top y = 500, one superscript word at top y = 490 and one
body word `ok`. -/
def lnB : hLine :=
  ⟨strL "bbox 100 500 900 530",
   [⟨strL "bbox 200 490 220 510", strL "9"⟩,
    ⟨strL "bbox 100 500 150 530", strL "ok"⟩]⟩

/-- A line (top y = 1, one word `hi`) on the degenerate page box
(0,10)-(100,0), used to separate floor from Go's truncation. -/
def lnNeg : hLine :=
  ⟨strL "bbox 0 1 50 6", [⟨strL "bbox 0 1 10 6", strL "hi"⟩]⟩

/-- **C5 (amended).** A parsed line is dropped exactly when its top y is at
or below the page's footnote cutoff, where the cutoff is the page top plus
`int(float64(height)*0.82)` — exact-rational truncation toward zero, which
agrees with the claimed floor whenever the page box has non-negative height
(`y1 ≥ y0`); for the default 1000-pixel page the cutoff is 820 and a line
with top y = 830 is excluded regardless of its content. -/
theorem C5_footnote_cutoff (pb : bbox) (ln : hLine) :
    (∀ lb, parseBBox ln.title = some lb → footCutOf pb ≤ lb.y0 →
      cleanLine (footCutOf pb) ln = none)
    ∧ (0 ≤ pb.y1 - pb.y0 →
      footCutOf pb = pb.y0 + Int.fdiv (82 * (pb.y1 - pb.y0)) 100)
    ∧ footCutOf ⟨0, 0, 1000, 1000⟩ = 820
    ∧ (∀ ws, cleanLine (footCutOf ⟨0, 0, 1000, 1000⟩) ⟨strL "bbox 100 830 900 860", ws⟩ = none) := by
  refine ⟨fun lb hlb hcut => ?_, fun h => ?_, by decide, fun ws => ?_⟩
  · rw [cleanLine_eq _ _ _ hlb, if_pos hcut]
  · unfold footCutOf
    rw [Int.tdiv_eq_ediv (by omega) (by omega), Int.fdiv_eq_ediv _ (by omega)]
  · rw [cleanLine_eq (footCutOf ⟨0, 0, 1000, 1000⟩) ⟨strL "bbox 100 830 900 860", ws⟩
      ⟨100, 830, 900, 860⟩
      (by exact (by decide : parseBBox (strL "bbox 100 830 900 860") = some ⟨100, 830, 900, 860⟩)),
      if_pos (by decide)]

/-- C5, instantiated: on the default 1000-pixel page, a line with top
y = 830 is dropped. -/
theorem C5_witness :
    cleanLine (footCutOf ⟨0, 0, 1000, 1000⟩)
      ⟨strL "bbox 100 830 900 860", [⟨strL "bbox 100 830 120 850", strL "x"⟩]⟩ = none := by
  exact (C5_footnote_cutoff ⟨0, 0, 1000, 1000⟩ _).1 ⟨100, 830, 900, 860⟩ (by decide) (by decide)

/-- C5, counterexample to the claim as stated: on a page whose parsed box has
y1 < y0 (which `parseBBox` accepts), the claimed cutoff `y0 + floor(0.82*h)`
is 1 and the line `lnNeg` has top y = 1 — at the claimed cutoff, so the claim
says it is dropped — yet the code (truncation toward zero: cutoff 2) keeps
the line and its word. -/
theorem C5_counterexample :
    parseBBox (strL "bbox 0 10 100 0") = some ⟨0, 10, 100, 0⟩
    ∧ (⟨0, 10, 100, 0⟩ : bbox).y0 +
        Int.fdiv (82 * ((⟨0, 10, 100, 0⟩ : bbox).y1 - (⟨0, 10, 100, 0⟩ : bbox).y0)) 100 ≤ 1
    ∧ cleanLine (footCutOf ⟨0, 10, 100, 0⟩) lnNeg = some ⟨⟨0, 1, 50, 6⟩, [⟨0, strL "hi"⟩]⟩ := by
  decide

/-- **C6.** Within a surviving line, a word is rejected as a superscript
exactly when its top y sits more than `superRisePx` (5) above the line's own
top y; words with no parseable box or empty trimmed text are also rejected;
survivors keep their left edge and trimmed text and are sorted by ascending
left-x; a line with no surviving words is dropped.  Scenario B: with line top
y = 500, a word at top y = 490 is dropped and the remaining word still forms
the line. -/
theorem C6_superscript_word_filter (lb : bbox) (w : hWord) (footCut : Int) (ln : hLine) :
    (parseBBox w.title = none → cleanWord lb w = none)
    ∧ (trimSpace w.text = [] → cleanWord lb w = none)
    ∧ (∀ wb, parseBBox w.title = some wb → trimSpace w.text ≠ [] →
        (cleanWord lb w = none ↔ superRisePx < lb.y0 - wb.y0))
    ∧ (∀ wb, parseBBox w.title = some wb → trimSpace w.text ≠ [] →
        ¬(superRisePx < lb.y0 - wb.y0) → cleanWord lb w = some ⟨wb.x0, trimSpace w.text⟩)
    ∧ (∀ lb' l, parseBBox ln.title = some lb' → cleanLine footCut ln = some l →
        l.b = lb' ∧ List.Sorted wordLE l.ws
        ∧ l.ws.Perm (ln.words.filterMap (cleanWord lb')) ∧ l.ws ≠ [])
    ∧ (∀ lb', parseBBox ln.title = some lb' → ¬(footCut ≤ lb'.y0) →
        ln.words.filterMap (cleanWord lb') = [] → cleanLine footCut ln = none)
    ∧ cleanLine 820 lnB = some ⟨⟨100, 500, 900, 530⟩, [⟨100, strL "ok"⟩]⟩ := by
  refine ⟨fun h => ?_, fun h => ?_, fun wb hwb hne => ?_, fun wb hwb hne hnot => ?_,
    fun lb' l hlb hcl => ?_, fun lb' hlb hcut hws => ?_, by decide⟩
  · unfold cleanWord
    rw [h]
  · cases hp : parseBBox w.title with
    | none =>
      unfold cleanWord
      rw [hp]
    | some wb =>
      rw [cleanWord_eq _ _ _ hp, if_pos (by simp [h])]
  · rw [cleanWord_eq _ _ _ hwb, if_neg (by simp [hne])]
    constructor
    · intro h
      by_cases hy : wb.y0 < lb.y0 - superRisePx
      · omega
      · rw [if_neg hy] at h
        cases h
    · intro h
      rw [if_pos (by omega)]
  · rw [cleanWord_eq _ _ _ hwb, if_neg (by simp [hne]), if_neg (by omega)]
  · rw [cleanLine_eq _ _ _ hlb] at hcl
    by_cases hcut : footCut ≤ lb'.y0
    · rw [if_pos hcut] at hcl
      cases hcl
    · rw [if_neg hcut] at hcl
      by_cases hemp : (ln.words.filterMap (cleanWord lb')).isEmpty = true
      · rw [if_pos hemp] at hcl
        cases hcl
      · rw [if_neg hemp] at hcl
        have hl : l = ⟨lb', List.insertionSort wordLE (ln.words.filterMap (cleanWord lb'))⟩ :=
          (Option.some_inj.mp hcl).symm
        subst hl
        refine ⟨rfl, List.sorted_insertionSort wordLE _, List.perm_insertionSort wordLE _, ?_⟩
        show List.insertionSort wordLE (ln.words.filterMap (cleanWord lb')) ≠ []
        intro hnil
        have hlen := (List.perm_insertionSort wordLE (ln.words.filterMap (cleanWord lb'))).length_eq
        rw [hnil] at hlen
        have hx : ln.words.filterMap (cleanWord lb') = [] :=
          List.length_eq_zero.mp (by simpa using hlen.symm)
        rw [hx] at hemp
        simp at hemp
  · rw [cleanLine_eq _ _ _ hlb, if_neg hcut, if_pos (by simp [hws])]

/-- C6, instantiated: on a line with top y = 500 the word `ok` boxed at top
y = 500 survives with its left edge and trimmed text. -/
theorem C6_witness :
    cleanWord ⟨100, 500, 900, 530⟩ ⟨strL "bbox 100 500 150 530", strL "ok"⟩ =
      some ⟨100, strL "ok"⟩ := by
  have h := (C6_superscript_word_filter ⟨100, 500, 900, 530⟩
    ⟨strL "bbox 100 500 150 530", strL "ok"⟩ 820 lnB).2.2.2.1
    ⟨100, 500, 150, 530⟩ (by decide) (by decide) (by decide)
  exact h.trans (by decide)

/-! ### C4: composite pairs -/

theorem joinSp_single (t : Str) : joinSp [t] = t := rfl

theorem joinSp_pair (a b : Str) : joinSp [a, b] = a ++ ' ' :: b := rfl

theorem filterNonEmpty_cons (s : Str) (ss : List Str) :
    filterNonEmpty (s :: ss) =
      if (trimSpace s).isEmpty then filterNonEmpty ss else s :: filterNonEmpty ss := by
  unfold filterNonEmpty
  rw [List.filter_cons]
  by_cases h : (trimSpace s).isEmpty = true
  · simp [h]
  · simp [h]

theorem pairStep_skip (verses : VMap) (st : asmState) (p : Int × Int)
    (ha : lookupV verses p.1 = none) (hb : lookupV verses p.2 = none) :
    pairStep verses st p = st := by
  unfold pairStep
  rw [ha, hb]
  rfl

theorem pairStep_emit (verses : VMap) (st : asmState) (p : Int × Int)
    (h : ¬(lookupV verses p.1 = none ∧ lookupV verses p.2 = none)) :
    pairStep verses st p =
      ⟨st.entities ++ [⟨st.entities.length + 1,
          intStr p.1 ++ '–' :: intStr p.2,
          trimSpace (joinSp (filterNonEmpty
            [(lookupV verses p.1).getD [], (lookupV verses p.2).getD []]))⟩],
       st.mappings ++ [(st.entities.length + 1, p.1), (st.entities.length + 1, p.2)],
       st.consumed ++ [p.1, p.2]⟩ := by
  have hc : ((lookupV verses p.1).isNone && (lookupV verses p.2).isNone) ≠ true := by
    intro hcond
    obtain ⟨h1, h2⟩ := (Bool.and_eq_true _ _).mp hcond
    exact h ⟨Option.isNone_iff_eq_none.mp h1, Option.isNone_iff_eq_none.mp h2⟩
  unfold pairStep
  rw [if_neg hc]

theorem isEmpty_trim_false {t : Str} (htr : trimmed t) (hne : t ≠ []) :
    (trimSpace t).isEmpty = false := by
  rw [htr]
  cases t with
  | nil => exact absurd rfl hne
  | cons c u => rfl

/-- **C4.** For a configured pair (A,B): if neither side is in the verse map
the pair is skipped outright; otherwise one composite entity labelled
`A–B` (en-dash) is emitted whose body is the one existing text when only one
side exists, or A's text, a space, then B's text when both exist; two
mappings (entity,A) and (entity,B) are emitted and both A and B are consumed
regardless of which sides existed; a consumed verse never reappears among the
single-verse keys (Scenario D verified concretely). -/
theorem C4_composite_pair (verses : VMap) (st : asmState) (A B : Int) :
    (lookupV verses A = none → lookupV verses B = none → pairStep verses st (A, B) = st)
    ∧ (∀ ta, lookupV verses A = some ta → lookupV verses B = none →
        trimmed ta → ta ≠ [] →
        pairStep verses st (A, B) =
          ⟨st.entities ++ [⟨st.entities.length + 1, intStr A ++ '–' :: intStr B, ta⟩],
           st.mappings ++ [(st.entities.length + 1, A), (st.entities.length + 1, B)],
           st.consumed ++ [A, B]⟩)
    ∧ (∀ tb, lookupV verses A = none → lookupV verses B = some tb →
        trimmed tb → tb ≠ [] →
        pairStep verses st (A, B) =
          ⟨st.entities ++ [⟨st.entities.length + 1, intStr A ++ '–' :: intStr B, tb⟩],
           st.mappings ++ [(st.entities.length + 1, A), (st.entities.length + 1, B)],
           st.consumed ++ [A, B]⟩)
    ∧ (∀ ta tb, lookupV verses A = some ta → lookupV verses B = some tb →
        trimmed ta → ta ≠ [] → trimmed tb → tb ≠ [] →
        pairStep verses st (A, B) =
          ⟨st.entities ++ [⟨st.entities.length + 1, intStr A ++ '–' :: intStr B,
              ta ++ ' ' :: tb⟩],
           st.mappings ++ [(st.entities.length + 1, A), (st.entities.length + 1, B)],
           st.consumed ++ [A, B]⟩)
    ∧ (∀ (consumed : List Int) (k : Int), k ∈ consumed → k ∉ singleKeys verses consumed)
    ∧ (buildEntities [(58, strL "foo")] [(58, 59)] =
        ⟨[⟨1, strL "58–59", strL "foo"⟩], [(1, 58), (1, 59)], [58, 59]⟩) := by
  refine ⟨fun hA hB => pairStep_skip verses st (A, B) hA hB,
    fun ta hA hB htr hne => ?_, fun tb hA hB htr hne => ?_,
    fun ta tb hA hB htrA hneA htrB hneB => ?_,
    fun consumed k hk hmem => ?_, by decide⟩
  · rw [pairStep_emit verses st (A, B) (by rw [hA]; rintro ⟨h1, -⟩; cases h1), hA, hB]
    have hbody : trimSpace (joinSp (filterNonEmpty [(some ta).getD [], (none : Option Str).getD []])) = ta := by
      show trimSpace (joinSp (filterNonEmpty [ta, []])) = ta
      rw [filterNonEmpty_cons, if_neg (by rw [isEmpty_trim_false htr hne]; exact Bool.false_ne_true),
        filterNonEmpty_cons, if_pos (by decide)]
      show trimSpace (joinSp [ta]) = ta
      rw [joinSp_single]
      exact htr
    rw [hbody]
  · rw [pairStep_emit verses st (A, B) (by rw [hB]; rintro ⟨-, h2⟩; cases h2), hA, hB]
    have hbody : trimSpace (joinSp (filterNonEmpty [(none : Option Str).getD [], (some tb).getD []])) = tb := by
      show trimSpace (joinSp (filterNonEmpty [[], tb])) = tb
      rw [filterNonEmpty_cons, if_pos (by decide), filterNonEmpty_cons,
        if_neg (by rw [isEmpty_trim_false htr hne]; exact Bool.false_ne_true)]
      show trimSpace (joinSp [tb]) = tb
      rw [joinSp_single]
      exact htr
    rw [hbody]
  · rw [pairStep_emit verses st (A, B) (by rw [hA]; rintro ⟨h1, -⟩; cases h1), hA, hB]
    have hbody : trimSpace (joinSp (filterNonEmpty [(some ta).getD [], (some tb).getD []])) =
        ta ++ ' ' :: tb := by
      show trimSpace (joinSp (filterNonEmpty [ta, tb])) = ta ++ ' ' :: tb
      rw [filterNonEmpty_cons, if_neg (by rw [isEmpty_trim_false htrA hneA]; exact Bool.false_ne_true),
        filterNonEmpty_cons, if_neg (by rw [isEmpty_trim_false htrB hneB]; exact Bool.false_ne_true),
        filterNonEmpty]
      show trimSpace (joinSp [ta, tb]) = ta ++ ' ' :: tb
      rw [joinSp_pair]
      exact trimmed_append htrA hneA htrB hneB
    rw [hbody]
  · unfold singleKeys at hmem
    have hmem' := ((List.perm_insertionSort _ _).mem_iff).mp hmem
    have hcontains := (List.mem_filter.mp hmem').2
    rw [Bool.not_eq_eq_eq_not, Bool.not_true] at hcontains
    exact absurd (List.elem_iff.mpr hk) (by simpa using hcontains)

/-- C4, instantiated (Scenario D shape): pair (58,59) with only verse 58
present yields the composite `58–59` with verse 58's text alone. -/
theorem C4_witness :
    pairStep [(58, strL "foo")] ⟨[], [], []⟩ (58, 59) =
      ⟨[⟨1, strL "58–59", strL "foo"⟩], [(1, 58), (1, 59)], [58, 59]⟩ := by
  have h := (C4_composite_pair [(58, strL "foo")] ⟨[], [], []⟩ 58 59).2.1
    (strL "foo") (by decide) (by decide) (by unfold trimmed; decide) (by decide)
  exact h.trans (by decide)

/-! ### C3: assembler output invariants -/

/-- A pair is emitted when at least one side is present in the verse map. -/
def emitted (verses : VMap) (p : Int × Int) : Bool :=
  !((lookupV verses p.1).isNone && (lookupV verses p.2).isNone)

theorem not_both_none_of_emitted {verses : VMap} {p : Int × Int}
    (he : emitted verses p = true) :
    ¬(lookupV verses p.1 = none ∧ lookupV verses p.2 = none) := by
  rintro ⟨h1, h2⟩
  unfold emitted at he
  rw [h1, h2] at he
  cases he

theorem pairStep_of_not_emitted {verses : VMap} (st : asmState) {p : Int × Int}
    (he : emitted verses p = false) : pairStep verses st p = st := by
  unfold emitted at he
  have hand : ((lookupV verses p.1).isNone && (lookupV verses p.2).isNone) = true := by
    cases hh : ((lookupV verses p.1).isNone && (lookupV verses p.2).isNone) with
    | true => rfl
    | false => rw [hh] at he; cases he
  obtain ⟨h1, h2⟩ := (Bool.and_eq_true _ _).mp hand
  exact pairStep_skip verses st p (Option.isNone_iff_eq_none.mp h1)
    (Option.isNone_iff_eq_none.mp h2)

/-- The verse components contributed by the composite phase. -/
def pairVerses (verses : VMap) (pairs : List (Int × Int)) : List Int :=
  (pairs.filter (emitted verses)).flatMap (fun p => [p.1, p.2])

theorem pairStep_mappings_emit (verses : VMap) (st : asmState) (p : Int × Int)
    (he : emitted verses p = true) :
    (pairStep verses st p).mappings =
      st.mappings ++ [(st.entities.length + 1, p.1), (st.entities.length + 1, p.2)] := by
  rw [pairStep_emit verses st p (not_both_none_of_emitted he)]

theorem pairStep_consumed_emit (verses : VMap) (st : asmState) (p : Int × Int)
    (he : emitted verses p = true) :
    (pairStep verses st p).consumed = st.consumed ++ [p.1, p.2] := by
  rw [pairStep_emit verses st p (not_both_none_of_emitted he)]

theorem pairs_foldl_fields (verses : VMap) (ps : List (Int × Int)) :
    ∀ st : asmState,
      ((ps.foldl (pairStep verses) st).mappings.map Prod.snd =
        st.mappings.map Prod.snd ++ pairVerses verses ps)
      ∧ ((ps.foldl (pairStep verses) st).consumed =
        st.consumed ++ pairVerses verses ps) := by
  induction ps with
  | nil => intro st; simp [pairVerses]
  | cons p ps ih =>
    intro st
    rw [List.foldl_cons]
    unfold pairVerses
    rw [List.filter_cons]
    by_cases he : emitted verses p = true
    · rw [if_pos he]
      obtain ⟨ihm, ihc⟩ := ih (pairStep verses st p)
      constructor
      · rw [ihm, pairStep_mappings_emit verses st p he, List.map_append, List.flatMap_cons,
          List.append_assoc]
        rfl
      · rw [ihc, pairStep_consumed_emit verses st p he, List.flatMap_cons, List.append_assoc]
        rfl
    · rw [if_neg he, pairStep_of_not_emitted st (Bool.not_eq_true _ ▸ he)]
      exact ih st

theorem singles_foldl_fields (verses : VMap) (ks : List Int) :
    ∀ st : asmState,
      ((ks.foldl (singleStep verses) st).mappings.map Prod.snd =
        st.mappings.map Prod.snd ++ ks)
      ∧ ((ks.foldl (singleStep verses) st).consumed = st.consumed) := by
  induction ks with
  | nil => intro st; simp
  | cons k ks ih =>
    intro st
    rw [List.foldl_cons]
    obtain ⟨ihm, ihc⟩ := ih (singleStep verses st k)
    constructor
    · rw [ihm]
      have hm : (singleStep verses st k).mappings =
          st.mappings ++ [(st.entities.length + 1, k)] := rfl
      rw [hm, List.map_append, List.append_assoc]
      rfl
    · rw [ihc]
      rfl

/-- The singleton entities produced by phase 2, starting after `base`
already-assigned ids. -/
def singleEntsFrom (verses : VMap) : Nat → List Int → List textEnt
  | _, [] => []
  | base, k :: ks =>
    ⟨base + 1, intStr k, (lookupV verses k).getD []⟩ :: singleEntsFrom verses (base + 1) ks

theorem singles_foldl_entities (verses : VMap) (ks : List Int) :
    ∀ st : asmState, (ks.foldl (singleStep verses) st).entities =
      st.entities ++ singleEntsFrom verses st.entities.length ks := by
  induction ks with
  | nil => intro st; simp [singleEntsFrom]
  | cons k ks ih =>
    intro st
    have hent : (singleStep verses st k).entities =
        st.entities ++ [⟨st.entities.length + 1, intStr k, (lookupV verses k).getD []⟩] := rfl
    rw [List.foldl_cons, ih (singleStep verses st k), hent, List.length_append,
      List.append_assoc]
    rfl

/-- Contiguous 1-based entity ids. -/
def idContig (st : asmState) : Prop :=
  st.entities.map textEnt.id = List.range' 1 st.entities.length

theorem idContig_append_one {st : asmState} (h : idContig st) (e : textEnt)
    (he : e.id = st.entities.length + 1) :
    (st.entities ++ [e]).map textEnt.id = List.range' 1 (st.entities ++ [e]).length := by
  rw [List.map_append, h, List.length_append]
  show List.range' 1 st.entities.length ++ [e.id] = List.range' 1 (st.entities.length + 1)
  rw [List.range'_concat, he, show 1 + 1 * st.entities.length = st.entities.length + 1 by omega]

theorem idContig_pairStep (verses : VMap) (st : asmState) (p : Int × Int)
    (h : idContig st) : idContig (pairStep verses st p) := by
  by_cases he : emitted verses p = true
  · rw [pairStep_emit verses st p (not_both_none_of_emitted he)]
    exact idContig_append_one h _ rfl
  · rw [pairStep_of_not_emitted st (Bool.not_eq_true _ ▸ he)]
    exact h

theorem idContig_singleStep (verses : VMap) (st : asmState) (k : Int)
    (h : idContig st) : idContig (singleStep verses st k) := by
  unfold singleStep
  exact idContig_append_one h _ rfl

theorem idContig_foldl_pairs (verses : VMap) (ps : List (Int × Int)) :
    ∀ st : asmState, idContig st → idContig (ps.foldl (pairStep verses) st) := by
  induction ps with
  | nil => intro st h; exact h
  | cons p ps ih => intro st h; exact ih _ (idContig_pairStep verses st p h)

theorem idContig_foldl_singles (verses : VMap) (ks : List Int) :
    ∀ st : asmState, idContig st → idContig (ks.foldl (singleStep verses) st) := by
  induction ks with
  | nil => intro st h; exact h
  | cons k ks ih => intro st h; exact ih _ (idContig_singleStep verses st k h)

theorem flatMap_filter_sublist {α β} (q : α → Bool) (f : α → List β) (ps : List α) :
    ((ps.filter q).flatMap f).Sublist (ps.flatMap f) := by
  induction ps with
  | nil => simp
  | cons p ps ih =>
    rw [List.filter_cons, List.flatMap_cons]
    by_cases hq : q p = true
    · rw [if_pos hq, List.flatMap_cons]
      exact ih.append_left (f p)
    · rw [if_neg hq]
      exact ih.trans (List.sublist_append_right _ _)

theorem contains_eq_true_iff {l : List Int} {a : Int} : l.contains a = true ↔ a ∈ l := by
  show l.elem a = true ↔ a ∈ l
  exact List.elem_iff

theorem singleKeys_count_zero {verses : VMap} {consumed : List Int} {n : Int}
    (hn : n ∈ consumed) : (singleKeys verses consumed).count n = 0 := by
  unfold singleKeys
  rw [(List.perm_insertionSort _ _).count_eq n]
  apply List.count_eq_zero_of_not_mem
  intro hmem2
  have h2 : (!(consumed.contains n)) = true := (List.mem_filter.mp hmem2).2
  rw [contains_eq_true_iff.mpr hn] at h2
  cases h2

theorem singleKeys_count_one {verses : VMap} {consumed : List Int} {n : Int}
    (hK : (verses.map Prod.fst).Nodup) (hn : n ∈ verses.map Prod.fst) (hnc : n ∉ consumed) :
    (singleKeys verses consumed).count n = 1 := by
  unfold singleKeys
  rw [(List.perm_insertionSort _ _).count_eq n]
  have hq : (fun k : Int => !(consumed.contains k)) n = true := by
    show (!(consumed.contains n)) = true
    cases hcc : consumed.contains n with
    | true => exact absurd (contains_eq_true_iff.mp hcc) hnc
    | false => rfl
  have hcf : ((verses.map Prod.fst).filter (fun k => !(consumed.contains k))).count n
      = (verses.map Prod.fst).count n := List.count_filter hq
  rw [hcf, List.count_eq_one_of_mem hK hn]

theorem singleKeys_count_le {verses : VMap} {consumed : List Int}
    (hK : (verses.map Prod.fst).Nodup) (n : Int) :
    (singleKeys verses consumed).count n ≤ 1 := by
  unfold singleKeys
  rw [(List.perm_insertionSort _ _).count_eq n]
  exact le_trans ((List.filter_sublist _).count_le n)
    (List.nodup_iff_count_le_one.mp hK n)

/-- **C3 (amended).** For every verse map and configured pair list: entity
ids form the contiguous sequence 1..N; all composite entities precede all
singleton entities, and the singleton keys are emitted in ascending order;
and — provided the verse numbers are distinct and no verse number occurs
twice among the pairs' members (true of the default configuration) — every
verse number of the map appears in exactly one emitted VerseMapping, and no
verse number appears in more than one. -/
theorem C3_entity_assembly (verses : VMap) (pairs : List (Int × Int)) :
    ((buildEntities verses pairs).entities.map textEnt.id =
      List.range' 1 (buildEntities verses pairs).entities.length)
    ∧ ((buildEntities verses pairs).entities =
        (compPhase verses pairs).entities ++
          singleEntsFrom verses (compPhase verses pairs).entities.length
            (singleKeys verses (compPhase verses pairs).consumed))
    ∧ List.Sorted (fun a b : Int => a ≤ b)
        (singleKeys verses (compPhase verses pairs).consumed)
    ∧ ((verses.map Prod.fst).Nodup →
       (pairs.flatMap (fun p => [p.1, p.2])).Nodup →
       (∀ n, n ∈ verses.map Prod.fst →
          ((buildEntities verses pairs).mappings.map Prod.snd).count n = 1)
       ∧ (∀ n, ((buildEntities verses pairs).mappings.map Prod.snd).count n ≤ 1)) := by
  have hcomp := pairs_foldl_fields verses pairs ⟨[], [], []⟩
  have hsing := singles_foldl_fields verses
    (singleKeys verses (compPhase verses pairs).consumed) (compPhase verses pairs)
  have hconsumed : (compPhase verses pairs).consumed = pairVerses verses pairs := by
    have h := hcomp.2
    simpa [compPhase] using h
  have hcompmap : (compPhase verses pairs).mappings.map Prod.snd = pairVerses verses pairs := by
    have h := hcomp.1
    simpa [compPhase] using h
  have htotal : (buildEntities verses pairs).mappings.map Prod.snd =
      pairVerses verses pairs ++ singleKeys verses (compPhase verses pairs).consumed := by
    show ((singleKeys verses (compPhase verses pairs).consumed).foldl (singleStep verses)
      (compPhase verses pairs)).mappings.map Prod.snd = _
    rw [hsing.1, hcompmap]
  refine ⟨?_, ?_, ?_, fun hK hP => ?_⟩
  · exact idContig_foldl_singles verses _ _ (idContig_foldl_pairs verses pairs ⟨[], [], []⟩ rfl)
  · exact singles_foldl_entities verses _ (compPhase verses pairs)
  · exact List.sorted_insertionSort _ _
  · have hMle : ∀ n : Int, (pairVerses verses pairs).count n ≤ 1 := fun n =>
      le_trans
        ((flatMap_filter_sublist (emitted verses) (fun p => [p.1, p.2]) pairs).count_le n)
        (List.nodup_iff_count_le_one.mp hP n)
    constructor
    · intro n hn
      rw [htotal, List.count_append]
      by_cases hmem : n ∈ pairVerses verses pairs
      · have h1 : (pairVerses verses pairs).count n = 1 :=
          le_antisymm (hMle n) (List.one_le_count_iff.mpr hmem)
        have hmem' : n ∈ (compPhase verses pairs).consumed := by
          rw [hconsumed]; exact hmem
        have h0 : (singleKeys verses (compPhase verses pairs).consumed).count n = 0 :=
          singleKeys_count_zero hmem'
        omega
      · have h0 : (pairVerses verses pairs).count n = 0 :=
          List.count_eq_zero_of_not_mem hmem
        have hnc : n ∉ (compPhase verses pairs).consumed := by
          rw [hconsumed]; exact hmem
        have h1 : (singleKeys verses (compPhase verses pairs).consumed).count n = 1 :=
          singleKeys_count_one hK hn hnc
        omega
    · intro n
      rw [htotal, List.count_append]
      by_cases hmem : n ∈ pairVerses verses pairs
      · have hmem' : n ∈ (compPhase verses pairs).consumed := by
          rw [hconsumed]; exact hmem
        have h0 : (singleKeys verses (compPhase verses pairs).consumed).count n = 0 :=
          singleKeys_count_zero hmem'
        have h1 := hMle n
        omega
      · have h0 : (pairVerses verses pairs).count n = 0 :=
          List.count_eq_zero_of_not_mem hmem
        have h1 : (singleKeys verses (compPhase verses pairs).consumed).count n ≤ 1 :=
          singleKeys_count_le hK n
        omega

/-- C3, counterexample to the claim as stated: with overlapping configured
pairs (1,2) and (2,3) over verses {1,2,3}, verse 2 appears in **two** emitted
VerseMappings (one per containing pair), so "exactly one mapping per verse"
fails for an arbitrary pair list. -/
theorem C3_counterexample :
    ((buildEntities [(1, strL "a"), (2, strL "b"), (3, strL "c")]
        [(1, 2), (2, 3)]).mappings.map Prod.snd).count 2 = 2 := by
  decide

/-- C3, instantiated: with the single pair (1,2) over the one-verse map {1},
verse 1 appears in exactly one emitted VerseMapping. -/
theorem C3_witness :
    ((buildEntities [(1, strL "a")] [(1, 2)]).mappings.map Prod.snd).count 1 = 1 := by
  exact ((C3_entity_assembly [(1, strL "a")] [(1, 2)]).2.2.2 (by decide) (by decide)).1 1 (by decide)

/-! ### C8: verse-map invariant over the whole pipeline -/

/-- Verse-map goodness: non-negative keys, values with substance. -/
def mapGood (m : VMap) : Prop := ∀ p ∈ m, 0 ≤ p.1 ∧ goodStr p.2

/-- Stitcher-state goodness: buffered tokens have substance, an open verse
number is non-negative. -/
def stGood (st : stState) : Prop :=
  (∀ t ∈ st.buf, goodStr t) ∧ (∀ n, st.currentNum = some n → 0 ≤ n)

theorem goodStr_of_trim_ne_nil {x : Str} (h : trimSpace x ≠ []) : goodStr (trimSpace x) := by
  cases hx : trimSpace x with
  | nil => exact absurd hx h
  | cons c t => exact ⟨c, List.mem_cons_self _ _, trimSpace_head_false hx⟩

theorem flushMap_good {st : stState} {m : VMap} (hm : mapGood m) (hst : stGood st) :
    mapGood (flushMap st m) := by
  obtain ⟨num, buf⟩ := st
  cases num with
  | none => rw [flushMap_none]; exact hm
  | some n =>
    cases buf with
    | nil => rw [flushMap_open_nil]; exact hm
    | cons t ts =>
      have hbuf : t :: ts ≠ [] := by simp
      have hn : 0 ≤ n := hst.2 n rfl
      have htxt : goodStr (trimSpace (joinWithSpaces (t :: ts))) :=
        goodStr_trimSpace (goodStr_joinWithSpaces (List.mem_cons_self t ts)
          (hst.1 t (List.mem_cons_self t ts)))
      cases hl : lookupV m n with
      | none =>
        rw [flushMap_open_none hbuf hl]
        intro p hp
        rcases mem_insertV hp with rfl | hp'
        · exact ⟨hn, htxt⟩
        · exact hm p hp'
      | some prev =>
        rw [flushMap_open_some hbuf hl]
        intro p hp
        rcases mem_insertV hp with rfl | hp'
        · refine ⟨hn, ?_⟩
          obtain ⟨c, hc, hw⟩ := (hm _ (lookupV_mem hl)).2
          exact goodStr_trimSpace ⟨c, List.mem_append_left _ hc, hw⟩
        · exact hm p hp'

theorem cleanWord_good {lb : bbox} {rw : hWord} {w : word}
    (h : cleanWord lb rw = some w) : goodStr w.t := by
  cases hp : parseBBox rw.title with
  | none =>
    unfold cleanWord at h
    rw [hp] at h
    cases h
  | some wb =>
    rw [cleanWord_eq lb rw wb hp] at h
    by_cases hemp : (trimSpace rw.text).isEmpty = true
    · rw [if_pos hemp] at h
      cases h
    · rw [if_neg hemp] at h
      by_cases hy : wb.y0 < lb.y0 - superRisePx
      · rw [if_pos hy] at h
        cases h
      · rw [if_neg hy] at h
        have hw : w = ⟨wb.x0, trimSpace rw.text⟩ := (Option.some_inj.mp h).symm
        subst hw
        exact goodStr_of_trim_ne_nil (by simpa using hemp)

theorem cleanLines_words_good (footCut : Int) (pg : hPage) :
    ∀ l ∈ cleanLines footCut pg, ∀ w ∈ l.ws, goodStr w.t := by
  intro l hl w hw
  obtain ⟨ln, -, hcl⟩ := List.mem_filterMap.mp hl
  cases hp : parseBBox ln.title with
  | none =>
    unfold cleanLine at hcl
    rw [hp] at hcl
    cases hcl
  | some lb =>
    rw [cleanLine_eq footCut ln lb hp] at hcl
    by_cases hcut : footCut ≤ lb.y0
    · rw [if_pos hcut] at hcl
      cases hcl
    · rw [if_neg hcut] at hcl
      by_cases hemp : (ln.words.filterMap (cleanWord lb)).isEmpty = true
      · rw [if_pos hemp] at hcl
        cases hcl
      · rw [if_neg hemp] at hcl
        have hle : l = ⟨lb, List.insertionSort wordLE (ln.words.filterMap (cleanWord lb))⟩ :=
          (Option.some_inj.mp hcl).symm
        subst hle
        have hw' : w ∈ ln.words.filterMap (cleanWord lb) :=
          ((List.perm_insertionSort wordLE _).mem_iff).mp hw
        obtain ⟨rw, -, hcw⟩ := List.mem_filterMap.mp hw'
        exact cleanWord_good hcw

theorem stepLine_good {lc : Int} {sm : stState × VMap} {l : line}
    (hl : ∀ w ∈ l.ws, goodStr w.t) (hst : stGood sm.1) (hm : mapGood sm.2) :
    stGood (stepLine lc sm l).1 ∧ mapGood (stepLine lc sm l).2 := by
  cases hws : l.ws with
  | nil => rw [stepLine_empty hws]; exact ⟨hst, hm⟩
  | cons w rest =>
    by_cases hc : (w.x ≤ lc ∧ isIntLit w.t = true)
    · rw [stepLine_start hws hc]
      refine ⟨⟨?_, ?_⟩, flushMap_good hm hst⟩
      · intro t ht
        obtain ⟨w', hw', rfl⟩ := List.mem_map.mp ht
        exact hl w' (hws ▸ List.mem_cons_of_mem _ hw')
      · intro n hn
        rw [Option.some_inj.mp hn.symm]
        exact atoi_nonneg_of_isIntLit hc.2
    · rw [stepLine_cont hws hc]
      refine ⟨⟨?_, hst.2⟩, hm⟩
      intro t ht
      rcases List.mem_append.mp ht with ht' | ht'
      · exact hst.1 t ht'
      · obtain ⟨w', hw', rfl⟩ := List.mem_map.mp ht'
        exact hl w' (hws ▸ hw')

theorem runLines_good (lc : Int) (lns : List line)
    (hlns : ∀ l ∈ lns, ∀ w ∈ l.ws, goodStr w.t) :
    ∀ sm : stState × VMap, stGood sm.1 → mapGood sm.2 →
      stGood (runLines lc sm lns).1 ∧ mapGood (runLines lc sm lns).2 := by
  induction lns with
  | nil => intro sm h1 h2; exact ⟨h1, h2⟩
  | cons l ls ih =>
    intro sm h1 h2
    rw [runLines_cons]
    obtain ⟨h1', h2'⟩ := stepLine_good (hlns l (List.mem_cons_self _ _)) h1 h2
    exact ih (fun l' hl' => hlns l' (List.mem_cons_of_mem _ hl')) _ h1' h2'

theorem processPage_good (pmin pmax : Int) {m : VMap} (pg : hPage) (hm : mapGood m) :
    mapGood (processPage pmin pmax m pg) := by
  have hOn : ∀ pb, mapGood (processPageOn m pb pg) := by
    intro pb
    unfold processPageOn finishMap
    obtain ⟨h1, h2⟩ := runLines_good (leftCutOf pb) (cleanLines (footCutOf pb) pg)
      (cleanLines_words_good (footCutOf pb) pg) (⟨none, []⟩, m) ⟨by simp, by simp⟩ hm
    exact flushMap_good h2 h1
  unfold processPage
  cases hpb : parseBBox pg.title with
  | none => exact hm
  | some pb =>
    show mapGood (match parsePageNo pg.title with
      | some pp => if pp < pmin ∨ pmax < pp then m else processPageOn m pb pg
      | none => processPageOn m pb pg)
    cases hpp : parsePageNo pg.title with
    | none => exact hOn pb
    | some pp =>
      show mapGood (if pp < pmin ∨ pmax < pp then m else processPageOn m pb pg)
      by_cases hw : pp < pmin ∨ pmax < pp
      · rw [if_pos hw]; exact hm
      · rw [if_neg hw]; exact hOn pb

/-- **C8.** For every input document and page window, every key of the final
verse map is a non-negative integer and its text is non-empty after
trimming. -/
theorem C8_verse_map_invariant (pmin pmax : Int) (doc : List hPage) :
    ∀ p ∈ processDoc pmin pmax doc, 0 ≤ p.1 ∧ trimSpace p.2 ≠ [] := by
  have hgood : mapGood (processDoc pmin pmax doc) := by
    unfold processDoc
    have h : ∀ (pgs : List hPage) (m : VMap), mapGood m →
        mapGood (pgs.foldl (processPage pmin pmax) m) := by
      intro pgs
      induction pgs with
      | nil => intro m hm; exact hm
      | cons pg pgs ih =>
        intro m hm
        rw [List.foldl_cons]
        exact ih _ (processPage_good pmin pmax pg hm)
    exact h doc [] (by intro p hp; cases hp)
  intro p hp
  obtain ⟨h1, h2⟩ := hgood p hp
  exact ⟨h1, trimSpace_ne_nil_of_goodStr h2⟩

/-- C8, instantiated: processing the one-page document `pgA` yields the entry
(70, `ab`): key 70 is non-negative and `ab` trims non-empty. -/
theorem C8_witness :
    0 ≤ ((70 : Int), strL "ab").1 ∧ trimSpace ((70 : Int), strL "ab").2 ≠ [] := by
  exact C8_verse_map_invariant 60 96 [pgA] (70, strL "ab") (by decide)

/-! ### C9: bbox parsing -/

/-- A non-empty run of whitespace (`\s+`). -/
def wsRun (l : Str) : Prop := l ≠ [] ∧ ∀ c ∈ l, isWS c = true

/-- A non-empty run of decimal digits (`\d+`). -/
def digitRun (l : Str) : Prop := l ≠ [] ∧ ∀ c ∈ l, c.isDigit = true

/-- Declarative form of the spec's geometry-annotation pattern: the string
contains the literal `bbox` followed by four whitespace-separated digit
runs.  Compared against the scanning parser for the refinement claim. -/
def hasBBoxPattern (s : Str) : Prop :=
  ∃ pre w1 d1 w2 d2 w3 d3 w4 d4 rest,
    s = pre ++ ('b' :: 'b' :: 'o' :: 'x' ::
      (w1 ++ (d1 ++ (w2 ++ (d2 ++ (w3 ++ (d3 ++ (w4 ++ (d4 ++ rest))))))))) ∧
    wsRun w1 ∧ digitRun d1 ∧ wsRun w2 ∧ digitRun d2 ∧
    wsRun w3 ∧ digitRun d3 ∧ wsRun w4 ∧ digitRun d4

theorem matchBBoxAt_cons4 (c1 c2 c3 c4 : Char) (rest : Str) :
    matchBBoxAt (c1 :: c2 :: c3 :: c4 :: rest) =
      if c1 = 'b' ∧ c2 = 'b' ∧ c3 = 'o' ∧ c4 = 'x' then
        (takeWS1 rest).bind fun r1 =>
        (takeDigits1 r1).bind fun p1 =>
        (takeWS1 p1.2).bind fun r2 =>
        (takeDigits1 r2).bind fun p2 =>
        (takeWS1 p2.2).bind fun r3 =>
        (takeDigits1 r3).bind fun p3 =>
        (takeWS1 p3.2).bind fun r4 =>
        (takeDigits1 r4).bind fun p4 =>
        some ⟨(p1.1 : Int), (p2.1 : Int), (p3.1 : Int), (p4.1 : Int)⟩
      else none := rfl

theorem takeWS1_decomp {s r : Str} (h : takeWS1 s = some r) :
    ∃ w, wsRun w ∧ s = w ++ r := by
  cases s with
  | nil => cases h
  | cons c rest =>
    replace h : (if isWS c = true then some (rest.dropWhile isWS) else none) = some r := h
    by_cases hc : isWS c = true
    · rw [if_pos hc] at h
      have hr : r = rest.dropWhile isWS := (Option.some_inj.mp h).symm
      refine ⟨c :: rest.takeWhile isWS, ⟨by simp, ?_⟩, ?_⟩
      · intro x hx
        rcases List.mem_cons.mp hx with rfl | hx'
        · exact hc
        · exact List.mem_takeWhile_imp hx'
      · rw [hr, List.cons_append, List.takeWhile_append_dropWhile]
    · rw [if_neg hc] at h
      cases h

theorem takeDigits1_decomp {s : Str} {p : Nat × Str} (h : takeDigits1 s = some p) :
    ∃ d, digitRun d ∧ s = d ++ p.2 := by
  cases s with
  | nil => cases h
  | cons c rest =>
    replace h : (if c.isDigit = true then
        some (digitsVal ((c :: rest).takeWhile Char.isDigit), (c :: rest).dropWhile Char.isDigit)
      else none) = some p := h
    by_cases hc : c.isDigit = true
    · rw [if_pos hc] at h
      have hp : p = (digitsVal ((c :: rest).takeWhile Char.isDigit),
          (c :: rest).dropWhile Char.isDigit) := (Option.some_inj.mp h).symm
      subst hp
      refine ⟨(c :: rest).takeWhile Char.isDigit,
        ⟨?_, fun x hx => List.mem_takeWhile_imp hx⟩, ?_⟩
      · rw [List.takeWhile_cons, if_pos hc]
        simp
      · exact (List.takeWhile_append_dropWhile _ _).symm
    · rw [if_neg hc] at h
      cases h

theorem matchBBoxAt_decomp {s : Str} {b : bbox} (h : matchBBoxAt s = some b) :
    ∃ w1 d1 w2 d2 w3 d3 w4 d4 rest,
      s = 'b' :: 'b' :: 'o' :: 'x' ::
        (w1 ++ (d1 ++ (w2 ++ (d2 ++ (w3 ++ (d3 ++ (w4 ++ (d4 ++ rest)))))))) ∧
      wsRun w1 ∧ digitRun d1 ∧ wsRun w2 ∧ digitRun d2 ∧
      wsRun w3 ∧ digitRun d3 ∧ wsRun w4 ∧ digitRun d4 := by
  rcases s with _ | ⟨c1, _ | ⟨c2, _ | ⟨c3, _ | ⟨c4, rest⟩⟩⟩⟩
  · exact Option.noConfusion h
  · exact Option.noConfusion h
  · exact Option.noConfusion h
  · exact Option.noConfusion h
  · rw [matchBBoxAt_cons4] at h
    by_cases hc : c1 = 'b' ∧ c2 = 'b' ∧ c3 = 'o' ∧ c4 = 'x'
    · obtain ⟨rfl, rfl, rfl, rfl⟩ := hc
      rw [if_pos ⟨rfl, rfl, rfl, rfl⟩] at h
      obtain ⟨r1, hx1, h⟩ := Option.bind_eq_some.mp h
      obtain ⟨p1, hx2, h⟩ := Option.bind_eq_some.mp h
      obtain ⟨r2, hx3, h⟩ := Option.bind_eq_some.mp h
      obtain ⟨p2, hx4, h⟩ := Option.bind_eq_some.mp h
      obtain ⟨r3, hx5, h⟩ := Option.bind_eq_some.mp h
      obtain ⟨p3, hx6, h⟩ := Option.bind_eq_some.mp h
      obtain ⟨r4, hx7, h⟩ := Option.bind_eq_some.mp h
      obtain ⟨p4, hx8, -⟩ := Option.bind_eq_some.mp h
      obtain ⟨w1, hw1, he1⟩ := takeWS1_decomp hx1
      obtain ⟨d1, hd1, he2⟩ := takeDigits1_decomp hx2
      obtain ⟨w2, hw2, he3⟩ := takeWS1_decomp hx3
      obtain ⟨d2, hd2, he4⟩ := takeDigits1_decomp hx4
      obtain ⟨w3, hw3, he5⟩ := takeWS1_decomp hx5
      obtain ⟨d3, hd3, he6⟩ := takeDigits1_decomp hx6
      obtain ⟨w4, hw4, he7⟩ := takeWS1_decomp hx7
      obtain ⟨d4, hd4, he8⟩ := takeDigits1_decomp hx8
      refine ⟨w1, d1, w2, d2, w3, d3, w4, d4, p4.2, ?_,
        hw1, hd1, hw2, hd2, hw3, hd3, hw4, hd4⟩
      rw [he1, he2, he3, he4, he5, he6, he7, he8]
    · rw [if_neg hc] at h
      exact Option.noConfusion h

theorem findBBox_decomp {s : Str} {b : bbox} (h : findBBox s = some b) :
    ∃ pre t, s = pre ++ t ∧ matchBBoxAt t = some b := by
  induction s with
  | nil => cases h
  | cons c rest ih =>
    have he : findBBox (c :: rest) =
        (match matchBBoxAt (c :: rest) with
         | some b => some b
         | none => findBBox rest) := rfl
    rw [he] at h
    cases hm : matchBBoxAt (c :: rest) with
    | some b' =>
      rw [hm] at h
      exact ⟨[], c :: rest, rfl, hm.trans h⟩
    | none =>
      rw [hm] at h
      obtain ⟨pre, t, hst, hmt⟩ := ih h
      exact ⟨c :: pre, t, by rw [List.cons_append, ← hst], hmt⟩

theorem ws_not_digit {c : Char} (h : isWS c = true) : c.isDigit = false := by
  unfold isWS at h
  rcases (by simpa using h :
      ((((c = ' ' ∨ c = '\t') ∨ c = '\n') ∨ c = '\x0c') ∨ c = '\r') ∨ c = '\x0b')
    with ((((rfl | rfl) | rfl) | rfl) | rfl) | rfl <;> decide

theorem digit_not_ws {c : Char} (h : c.isDigit = true) : isWS c = false := by
  cases hw : isWS c with
  | false => rfl
  | true => rw [ws_not_digit hw] at h; cases h

theorem dropWhile_append_all {α} {p : α → Bool} {l : List α}
    (h : ∀ c ∈ l, p c = true) (m : List α) :
    (l ++ m).dropWhile p = m.dropWhile p := by
  induction l with
  | nil => rfl
  | cons a t ih =>
    rw [List.cons_append, List.dropWhile_cons, if_pos (h a (List.mem_cons_self _ _))]
    exact ih (fun c hc => h c (List.mem_cons_of_mem _ hc))

theorem takeWS1_run (w d r : Str) (hw : wsRun w) (hd : digitRun d) :
    takeWS1 (w ++ (d ++ r)) = some (d ++ r) := by
  obtain ⟨hne, hall⟩ := hw
  cases w with
  | nil => exact absurd rfl hne
  | cons c w' =>
    rw [List.cons_append]
    show (if isWS c = true then some ((w' ++ (d ++ r)).dropWhile isWS) else none) = some (d ++ r)
    rw [if_pos (hall c (List.mem_cons_self _ _)),
      dropWhile_append_all (fun x hx => hall x (List.mem_cons_of_mem _ hx)) (d ++ r)]
    obtain ⟨hdne, hdall⟩ := hd
    cases d with
    | nil => exact absurd rfl hdne
    | cons e d' =>
      rw [List.cons_append, List.dropWhile_cons,
        if_neg (by rw [digit_not_ws (hdall e (List.mem_cons_self _ _))]
                   exact Bool.false_ne_true)]

theorem takeDigits1_run (d w r : Str) (hd : digitRun d) (hw : wsRun w) :
    ∃ v, takeDigits1 (d ++ (w ++ r)) = some (v, w ++ r) := by
  obtain ⟨hdne, hdall⟩ := hd
  cases d with
  | nil => exact absurd rfl hdne
  | cons e d' =>
    rw [List.cons_append]
    have hdrop : (e :: (d' ++ (w ++ r))).dropWhile Char.isDigit = w ++ r := by
      rw [List.dropWhile_cons, if_pos (hdall e (List.mem_cons_self _ _)),
        dropWhile_append_all (fun x hx => hdall x (List.mem_cons_of_mem _ hx)) (w ++ r)]
      obtain ⟨hwne, hwall⟩ := hw
      cases w with
      | nil => exact absurd rfl hwne
      | cons f w' =>
        rw [List.cons_append, List.dropWhile_cons,
          if_neg (by rw [ws_not_digit (hwall f (List.mem_cons_self _ _))]
                     exact Bool.false_ne_true)]
    refine ⟨digitsVal ((e :: (d' ++ (w ++ r))).takeWhile Char.isDigit), ?_⟩
    show (if e.isDigit = true then
        some (digitsVal ((e :: (d' ++ (w ++ r))).takeWhile Char.isDigit),
          (e :: (d' ++ (w ++ r))).dropWhile Char.isDigit)
      else none) = some (_, w ++ r)
    rw [if_pos (hdall e (List.mem_cons_self _ _)), hdrop]

theorem takeDigits1_run_last (d r : Str) (hd : digitRun d) :
    ∃ pr, takeDigits1 (d ++ r) = some pr := by
  obtain ⟨hdne, hdall⟩ := hd
  cases d with
  | nil => exact absurd rfl hdne
  | cons e d' =>
    rw [List.cons_append]
    refine ⟨(digitsVal ((e :: (d' ++ r)).takeWhile Char.isDigit),
      (e :: (d' ++ r)).dropWhile Char.isDigit), ?_⟩
    show (if e.isDigit = true then
        some (digitsVal ((e :: (d' ++ r)).takeWhile Char.isDigit),
          (e :: (d' ++ r)).dropWhile Char.isDigit)
      else none) = some _
    rw [if_pos (hdall e (List.mem_cons_self _ _))]

theorem matchBBoxAt_pattern (w1 d1 w2 d2 w3 d3 w4 d4 rest : Str)
    (hw1 : wsRun w1) (hd1 : digitRun d1) (hw2 : wsRun w2) (hd2 : digitRun d2)
    (hw3 : wsRun w3) (hd3 : digitRun d3) (hw4 : wsRun w4) (hd4 : digitRun d4) :
    matchBBoxAt ('b' :: 'b' :: 'o' :: 'x' ::
      (w1 ++ (d1 ++ (w2 ++ (d2 ++ (w3 ++ (d3 ++ (w4 ++ (d4 ++ rest))))))))) ≠ none := by
  rw [matchBBoxAt_cons4, if_pos ⟨rfl, rfl, rfl, rfl⟩]
  rw [takeWS1_run w1 d1 (w2 ++ (d2 ++ (w3 ++ (d3 ++ (w4 ++ (d4 ++ rest)))))) hw1 hd1]
  simp only [Option.some_bind]
  obtain ⟨v1, hv1⟩ := takeDigits1_run d1 w2 (d2 ++ (w3 ++ (d3 ++ (w4 ++ (d4 ++ rest))))) hd1 hw2
  rw [hv1]
  simp only [Option.some_bind]
  rw [takeWS1_run w2 d2 (w3 ++ (d3 ++ (w4 ++ (d4 ++ rest)))) hw2 hd2]
  simp only [Option.some_bind]
  obtain ⟨v2, hv2⟩ := takeDigits1_run d2 w3 (d3 ++ (w4 ++ (d4 ++ rest))) hd2 hw3
  rw [hv2]
  simp only [Option.some_bind]
  rw [takeWS1_run w3 d3 (w4 ++ (d4 ++ rest)) hw3 hd3]
  simp only [Option.some_bind]
  obtain ⟨v3, hv3⟩ := takeDigits1_run d3 w4 (d4 ++ rest) hd3 hw4
  rw [hv3]
  simp only [Option.some_bind]
  rw [takeWS1_run w4 d4 rest hw4 hd4]
  simp only [Option.some_bind]
  obtain ⟨pr4, hpr4⟩ := takeDigits1_run_last d4 rest hd4
  rw [hpr4]
  simp only [Option.some_bind]
  exact Option.noConfusion

theorem findBBox_pattern {t : Str} (hm : matchBBoxAt t ≠ none) :
    ∀ pre : Str, findBBox (pre ++ t) ≠ none := by
  intro pre
  induction pre with
  | nil =>
    cases t with
    | nil => exact absurd rfl hm
    | cons c rest =>
      show (match matchBBoxAt (c :: rest) with
        | some b => some b
        | none => findBBox rest) ≠ none
      cases hmm : matchBBoxAt (c :: rest) with
      | none => exact absurd hmm hm
      | some b => exact Option.noConfusion
  | cons p pre' ih =>
    rw [List.cons_append]
    show (match matchBBoxAt (p :: (pre' ++ t)) with
      | some b => some b
      | none => findBBox (pre' ++ t)) ≠ none
    cases hmm : matchBBoxAt (p :: (pre' ++ t)) with
    | none => exact ih
    | some b => exact Option.noConfusion

/-- **C9 (amended).** `parseBBox` reports `ok = false` exactly when the
geometry annotation lacks the `bbox` pattern (the literal `bbox` followed by
four whitespace-separated digit runs); callers at page, line and word level
skip the element on `ok = false`.  A successfully parsed box carries the
pattern's four integers as-is: the x0 ≤ x1, y0 ≤ y1 invariant is *not*
enforced by parsing (see the counterexample). -/
theorem C9_bbox_parse (title : Str) :
    (parseBBox title = none ↔ ¬ hasBBoxPattern title)
    ∧ (∀ (pg : hPage) (pmin pmax : Int) (m : VMap),
        parseBBox pg.title = none → processPage pmin pmax m pg = m)
    ∧ (∀ (fc : Int) (ln : hLine), parseBBox ln.title = none → cleanLine fc ln = none)
    ∧ (∀ (lb : bbox) (w : hWord), parseBBox w.title = none → cleanWord lb w = none) := by
  refine ⟨⟨fun hnone hpat => ?_, fun hno => ?_⟩, fun pg pmin pmax m h => ?_,
    fun fc ln h => ?_, fun lb w h => ?_⟩
  · obtain ⟨pre, w1, d1, w2, d2, w3, d3, w4, d4, rest, hs,
      hw1, hd1, hw2, hd2, hw3, hd3, hw4, hd4⟩ := hpat
    have hne := findBBox_pattern
      (matchBBoxAt_pattern w1 d1 w2 d2 w3 d3 w4 d4 rest hw1 hd1 hw2 hd2 hw3 hd3 hw4 hd4) pre
    rw [← hs] at hne
    exact hne hnone
  · cases hq : parseBBox title with
    | none => rfl
    | some b =>
      obtain ⟨pre, t, hst, hmt⟩ := findBBox_decomp hq
      obtain ⟨w1, d1, w2, d2, w3, d3, w4, d4, rest, ht,
        hw1, hd1, hw2, hd2, hw3, hd3, hw4, hd4⟩ := matchBBoxAt_decomp hmt
      exact absurd ⟨pre, w1, d1, w2, d2, w3, d3, w4, d4, rest,
        by rw [hst, ht], hw1, hd1, hw2, hd2, hw3, hd3, hw4, hd4⟩ hno
  · unfold processPage
    rw [h]
  · unfold cleanLine
    rw [h]
  · unfold cleanWord
    rw [h]

/-- C9, instantiated: a title with no bbox pattern parses to `ok = false`
and the word-level caller skips the element. -/
theorem C9_witness :
    cleanWord ⟨0, 0, 10, 10⟩ ⟨strL "nobox here", strL "hi"⟩ = none := by
  exact (C9_bbox_parse (strL "nobox here")).2.2.2 ⟨0, 0, 10, 10⟩
    ⟨strL "nobox here", strL "hi"⟩ (by decide)

/-- C9, counterexample to the claim as stated: the annotation
`bbox 5 5 1 1` parses successfully (`ok = true`) but the resulting box
violates x0 ≤ x1 — the parser does not enforce the ordering invariant. -/
theorem C9_counterexample :
    parseBBox (strL "bbox 5 5 1 1") = some ⟨5, 5, 1, 1⟩
    ∧ ¬((⟨5, 5, 1, 1⟩ : bbox).x0 ≤ (⟨5, 5, 1, 1⟩ : bbox).x1) := by
  decide

end Dhammapada
